import Mathlib

/-!
Shallow embedding of the crossword generator core
(`src/src/grid.py`, `src/src/word_placer.py`, `src/src/validator.py`,
`src/src/generator.py`, `src/src/utils.py`, `src/app.py`) and proofs of the
specification claims about it.

Conventions of the embedding:
* a grid cell holds `Option Char`; `none` is the empty marker `''`;
* words are `List Char`; directions are the literal strings
  `"horizontal"` / `"vertical"` exactly as in the source;
* Python integers are `Int` (coordinates) or `Nat` (lengths, counts);
* `random.choice` is modelled by an explicit oracle: a list of naturals,
  each consumed choice picks index `o % candidates.length`;
* float arithmetic on densities is modelled exactly over `Rat`.
-/

/-- Model of `str.upper()` on a single character, restricted to the alphabets this
program manipulates (Cyrillic `а`-`я`, `ё`, and ASCII `a`-`z`); all other
characters are fixed, as Python leaves them unchanged. -/
def upChar (c : Char) : Char :=
  if 0x430 ≤ c.toNat ∧ c.toNat ≤ 0x44F then Char.ofNat (c.toNat - 32)
  else if c = 'ё' then 'Ё'
  else if 'a' ≤ c ∧ c ≤ 'z' then Char.ofNat (c.toNat - 32)
  else c

/-- Model of `word.upper()` on a word represented as a list of characters. -/
def upWord (w : List Char) : List Char := w.map upChar

/-- Model of `PlacedWord` (grid.py): a committed placement. -/
structure PlacedWord where
  word : List Char
  clue : String
  hint : String
  row : Int
  col : Int
  direction : String
  deriving Repr, DecidableEq

/-- Model of `PlacedWord.length` (grid.py): derived length of the word. -/
def PlacedWord.length (p : PlacedWord) : Nat := p.word.length

/-- Model of `Grid` (grid.py): the board state.  `cells` is `self._grid`,
`placed_words` is `self._placed_words`. -/
structure Grid where
  size : Nat
  height : Nat
  width : Nat
  cells : List (List (Option Char))
  placed_words : List PlacedWord
  deriving Repr, DecidableEq

/-- Model of `Grid.__init__(size)`: an empty square grid. -/
def Grid.init (size : Nat) : Grid :=
  { size := size
    height := size
    width := size
    cells := List.replicate size (List.replicate size none)
    placed_words := [] }

/-- Raw indexing `self._grid[row][col]` (defaulting to empty out of range;
the source only indexes in range on well-formed grids). -/
def Grid.cellAt (g : Grid) (r c : Nat) : Option Char :=
  (g.cells.getD r []).getD c none

/-- Model of `Grid.get_cell(row, col)`: contents of a cell, `''` outside the board. -/
def get_cell (g : Grid) (row col : Int) : Option Char :=
  if 0 ≤ row ∧ row < g.height ∧ 0 ≤ col ∧ col < g.width then
    g.cellAt row.toNat col.toNat
  else none

/-- Model of `Grid.set_cell(row, col, char)`: writes a cell if it is on the board
(the source also returns a success flag, which `place_word` ignores). -/
def set_cell (g : Grid) (row col : Int) (ch : Char) : Grid :=
  if 0 ≤ row ∧ row < g.height ∧ 0 ≤ col ∧ col < g.width then
    { g with cells :=
        g.cells.set row.toNat ((g.cells.getD row.toNat []).set col.toNat (some ch)) }
  else g

/-- The cell occupied by offset `i` of a word at `(row, col)` in `direction`:
`(row, col + i)` for horizontal, `(row + i, col)` otherwise. -/
def word_pos (row col : Int) (direction : String) (i : Nat) : Int × Int :=
  if direction = "horizontal" then (row, col + i) else (row + i, col)

/-- Model of `Grid._has_perpendicular_word(row, col, direction)`: is there a placed
word of `direction` running through `(row, col)`? -/
def has_perpendicular_word (g : Grid) (row col : Int) (direction : String) : Bool :=
  g.placed_words.any fun placed =>
    decide (placed.direction = direction) &&
    (if direction = "horizontal" then
       decide (placed.row = row) && decide (placed.col ≤ col) &&
       decide (col < placed.col + (placed.length : Int))
     else
       decide (placed.col = col) && decide (placed.row ≤ row) &&
       decide (row < placed.row + (placed.length : Int)))

/-- Model of `Grid._check_adjacent_cells(row, col, direction, ...)`: a newly written
cell may have a filled perpendicular neighbour only when a committed word of
the perpendicular direction runs through the cell itself.  (The source's
`pos_in_word` and `word_length` parameters are unused there and omitted.) -/
def check_adjacent_cells (g : Grid) (row col : Int) (direction : String) : Bool :=
  if direction = "horizontal" then
    if get_cell g (row - 1) col ≠ none ∨ get_cell g (row + 1) col ≠ none then
      has_perpendicular_word g row col "vertical"
    else true
  else
    if get_cell g row (col - 1) ≠ none ∨ get_cell g row (col + 1) ≠ none then
      has_perpendicular_word g row col "horizontal"
    else true

/-- The per-letter check of `Grid.can_place_word`'s main loop: the cell either
already holds the same letter, or is empty and passes the adjacency check. -/
def letter_cell_ok (g : Grid) (row col : Int) (direction : String)
    (i : Nat) (ch : Char) : Bool :=
  let rc := word_pos row col direction i
  match get_cell g rc.1 rc.2 with
  | some c => decide (c = ch)
  | none => check_adjacent_cells g rc.1 rc.2 direction

/-- The end-cap checks of `Grid.can_place_word`: the cell before the origin
and the cell after the last letter must be empty or off the board. -/
def end_caps_ok (g : Grid) (len : Nat) (row col : Int) (direction : String) : Bool :=
  if direction = "horizontal" then
    (decide (col ≤ 0) || decide (get_cell g row (col - 1) = none)) &&
    (decide ((g.width : Int) ≤ col + len) || decide (get_cell g row (col + len) = none))
  else
    (decide (row ≤ 0) || decide (get_cell g (row - 1) col = none)) &&
    (decide ((g.height : Int) ≤ row + len) || decide (get_cell g (row + len) col = none))

/-- Model of `Grid.can_place_word(word, row, col, direction)`. -/
def can_place_word (g : Grid) (word : List Char) (row col : Int)
    (direction : String) : Bool :=
  let w := upWord word
  let len := w.length
  decide (0 ≤ row) && decide (0 ≤ col) &&
  (if direction = "horizontal" then
     decide (col + (len : Int) ≤ g.width) && decide (row < g.height)
   else
     decide (row + (len : Int) ≤ g.height) && decide (col < g.width)) &&
  w.enum.all (fun ic => letter_cell_ok g row col direction ic.1 ic.2) &&
  end_caps_ok g len row col direction

/-- The letter-writing loop of `Grid.place_word`. -/
def write_letters (g : Grid) (w : List Char) (row col : Int)
    (direction : String) : Grid :=
  w.enum.foldl
    (fun acc ic =>
      set_cell acc (word_pos row col direction ic.1).1
        (word_pos row col direction ic.1).2 ic.2)
    g

/-- Model of `Grid.place_word(word, clue, hint, row, col, direction)`: checks
`can_place_word` on the uppercased word; on success writes the letters and
appends a `PlacedWord`.  Returns the success flag and the updated state. -/
def place_word (g : Grid) (word : List Char) (clue hint : String)
    (row col : Int) (direction : String) : Bool × Grid :=
  let w := upWord word
  if can_place_word g w row col direction then
    let g1 := write_letters g w row col direction
    (true, { g1 with placed_words :=
        g1.placed_words ++ [⟨w, clue, hint, row, col, direction⟩] })
  else (false, g)

/-- Model of `Grid._count_intersections(word, row, col, direction)`. -/
def count_intersections (g : Grid) (word : List Char) (row col : Int)
    (direction : String) : Nat :=
  word.enum.foldl
    (fun cnt ic =>
      if get_cell g (word_pos row col direction ic.1).1
          (word_pos row col direction ic.1).2 = some ic.2 then cnt + 1
      else cnt)
    0

/-- Model of `Grid.get_intersections(word)`: all candidate placements of `word`
crossing some committed word, with their intersection counts. -/
def get_intersections (g : Grid) (word : List Char) :
    List (Int × Int × String × Nat) :=
  let w := upWord word
  g.placed_words.flatMap fun placed =>
    placed.word.enum.flatMap fun ip =>
      w.enum.flatMap fun jw =>
        if ip.2 = jw.2 then
          let nr := if placed.direction = "horizontal"
                    then placed.row - (jw.1 : Int) else placed.row + (ip.1 : Int)
          let nc := if placed.direction = "horizontal"
                    then placed.col + (ip.1 : Int) else placed.col - (jw.1 : Int)
          let nd := if placed.direction = "horizontal" then "vertical"
                    else "horizontal"
          if can_place_word g w nr nc nd then
            [(nr, nc, nd, count_intersections g w nr nc nd)]
          else []
        else []

/-- The row-major enumeration of all cell coordinates scanned by
`crop_empty_edges`. -/
def pair_list (h w : Nat) : List (Nat × Nat) :=
  (List.range h).flatMap fun r => (List.range w).map fun c => (r, c)

/-- One step of the bounding-box scan in `Grid.crop_empty_edges`. -/
def crop_step (g : Grid) (acc : Nat × Nat × Nat × Nat) (rc : Nat × Nat) :
    Nat × Nat × Nat × Nat :=
  if g.cellAt rc.1 rc.2 ≠ none then
    (min acc.1 rc.1, max acc.2.1 rc.1, min acc.2.2.1 rc.2, max acc.2.2.2 rc.2)
  else acc

/-- The bounding-box scan of `Grid.crop_empty_edges`:
`(min_row, max_row, min_col, max_col)` with the source's initial values
`(height, 0, width, 0)`. -/
def crop_bounds (g : Grid) : Nat × Nat × Nat × Nat :=
  (pair_list g.height g.width).foldl (crop_step g) (g.height, 0, g.width, 0)

/-- Model of `Grid.crop_empty_edges()`: crops to the bounding box of non-empty cells,
shifting all placed words; returns the new `(height, width)` and the new
state.  On an all-empty board it returns `(0, 0)` and leaves the state as is. -/
def crop_empty_edges (g : Grid) : (Nat × Nat) × Grid :=
  let b := crop_bounds g
  let min_row := b.1
  let max_row := b.2.1
  let min_col := b.2.2.1
  let max_col := b.2.2.2
  if max_row < min_row then ((0, 0), g)
  else
    let new_height := max_row - min_row + 1
    let new_width := max_col - min_col + 1
    let new_grid := (List.range new_height).map fun r =>
      (List.range new_width).map fun c => g.cellAt (min_row + r) (min_col + c)
    let new_words := g.placed_words.map fun p =>
      { p with row := p.row - (min_row : Int), col := p.col - (min_col : Int) }
    ((new_height, new_width),
     { size := max new_height new_width
       height := new_height
       width := new_width
       cells := new_grid
       placed_words := new_words })

/-- Model of `Grid.get_fill_density()`: filled cells over total cells, `0` on an
empty board (exact rational model of the Python float division). -/
def get_fill_density (g : Grid) : Rat :=
  let total := g.cells.foldl (fun t row => t + row.length) 0
  let filled := g.cells.foldl
    (fun t row => t + row.foldl (fun s cell => if cell ≠ none then s + 1 else s) 0) 0
  if 0 < total then mkRat filled total else 0

/-- Model of `Grid.to_array()`: the board as a 2-D array. -/
def to_array (g : Grid) : List (List (Option Char)) := g.cells

/-- Model of `Grid.get_placed_words()`. -/
def get_placed_words (g : Grid) : List PlacedWord := g.placed_words

/-! ### Word scoring and stable sorting (utils.py)

Python's `sorted(l, key=k, reverse=True)` is a stable descending sort; it is
modelled by insertion sort `sort_desc`, which keeps an element before every
later element whose key is not larger. -/

/-- Stable descending insertion into a descending-sorted list. -/
def insert_desc {α : Type} (key : α → Int) (x : α) : List α → List α
  | [] => [x]
  | y :: ys => if key x < key y then y :: insert_desc key x ys else x :: y :: ys

/-- Model of `sorted(l, key=key, reverse=True)`: stable descending sort by `key`. -/
def sort_desc {α : Type} (key : α → Int) : List α → List α
  | [] => []
  | x :: xs => insert_desc key x (sort_desc key xs)

/-- Model of `WordEntry`: a dictionary record `{word, clue, hint}`. -/
structure WordEntry where
  word : List Char
  clue : String
  hint : String
  deriving Repr, DecidableEq

instance : Inhabited WordEntry := ⟨⟨[], "", ""⟩⟩

/-- Model of `get_common_letters()` (utils.py): frequency-ordered Cyrillic alphabet. -/
def get_common_letters : List Char := "ОЕАИНТСРВЛКМДПУЯЫЬГЗБЧЙХЖШЮЦЩЭФЪЁ".toList

/-- Model of `calculate_word_score(word)` (utils.py): `10·length + 5·(count of letters
among the top-15 frequent ones)`. -/
def calculate_word_score (word : List Char) : Int :=
  let w := upWord word
  let common15 := get_common_letters.take 15
  (w.length : Int) * 10 + ((w.filter (fun c => c ∈ common15)).length : Int) * 5

/-- Model of `sort_words_by_score(words)` (utils.py). -/
def sort_words_by_score (words : List WordEntry) : List WordEntry :=
  sort_desc (fun w => calculate_word_score w.word) words

/-! ### WordPlacer (word_placer.py)

The placer's mutable state (grid, used-word set) is threaded explicitly, and
each `random.choice(candidates)` consumes one natural `o` from an explicit
oracle list, selecting index `o % candidates.length`. -/

/-- Model of `WordPlacer.MAX_ATTEMPTS_PER_WORD` is unused by the source loop; the
`max_attempts` default of `place_remaining_words` is 1000. -/
def PLACER_MAX_ATTEMPTS : Nat := 1000

/-- Model of `WordPlacer.place_initial_word()` (with the default `center=True`):
choose one of the five longest words at random, place it horizontally,
centred.  Returns `((success, grid, used_words), remaining_oracle)`. -/
def place_initial_word (g : Grid) (word_list : List WordEntry)
    (oracle : List Nat) : (Bool × Grid × List (List Char)) × List Nat :=
  if word_list = [] then ((false, g, []), oracle)
  else
    let sorted_words := sort_desc (fun w => (w.word.length : Int)) word_list
    let candidates := sorted_words.take 5
    let word_entry := candidates.getD (oracle.headD 0 % candidates.length) default
    let word := upWord word_entry.word
    let length := word.length
    let row : Int := (g.size : Int) / 2
    let col0 : Int := ((g.size : Int) - (length : Int)) / 2
    let col : Int := if col0 < 0 then 0 else col0
    if (g.size : Int) < col + (length : Int) then ((false, g, []), oracle.tail)
    else
      let res := place_word g word word_entry.clue word_entry.hint row col "horizontal"
      if res.1 then ((true, res.2, [word]), oracle.tail)
      else ((false, res.2, []), oracle.tail)

/-- Model of `WordPlacer.find_best_position(word)`: rank the legal intersection
positions by `10·crossings − distance-to-centre` and pick one of the top
three at random. -/
def find_best_position (g : Grid) (word : List Char) (oracle : List Nat) :
    Option (Int × Int × String × Nat) × List Nat :=
  let intersections := get_intersections g word
  if intersections = [] then (none, oracle)
  else
    let center : Int := (g.size : Int) / 2
    let position_score := fun (p : Int × Int × String × Nat) =>
      (p.2.2.2 : Int) * 10 - (((p.1 - center).natAbs + (p.2.1 - center).natAbs : Nat) : Int)
    let sorted_positions := sort_desc position_score intersections
    let top_positions := sorted_positions.take 3
    (some (top_positions.getD (oracle.headD 0 % top_positions.length) (0, 0, "", 0)),
     oracle.tail)

/-- The working queue built at the top of `place_remaining_words`: the not
yet used words, stable-sorted by length, longest first. -/
def candidate_queue (word_list : List WordEntry) (used : List (List Char)) :
    List WordEntry :=
  sort_desc (fun w => (w.word.length : Int))
    (word_list.filter (fun w => decide (upWord w.word ∉ used)))

/-- The `while` loop of `place_remaining_words`, with structural fuel.
Every iteration strictly decreases
`(available.length − word_index) * (max_attempts + 1) + (max_attempts − attempts)`,
which is less than the fuel `place_remaining_words` supplies, so the
fuel-exhausted branch is never taken there. -/
def prw_loop (available : List WordEntry) (target_count max_attempts : Nat) :
    Nat → Grid → List (List Char) → List Nat → Nat → Nat →
    Grid × List (List Char) × List Nat
  | 0, g, used, oracle, _, _ => (g, used, oracle)
  | fuel + 1, g, used, oracle, attempts, word_index =>
    if g.placed_words.length < target_count ∧ attempts < max_attempts ∧
        word_index < available.length then
      let word_entry := available.getD word_index default
      let word := upWord word_entry.word
      if word ∈ used then
        prw_loop available target_count max_attempts fuel g used oracle attempts
          (word_index + 1)
      else
        let fb := find_best_position g word oracle
        match fb.1 with
        | some pos =>
          let res := place_word g word word_entry.clue word_entry.hint
            pos.1 pos.2.1 pos.2.2.1
          if res.1 then
            prw_loop available target_count max_attempts fuel res.2
              (used ++ [word]) fb.2 0 (word_index + 1)
          else
            prw_loop available target_count max_attempts fuel res.2 used fb.2
              (attempts + 1) word_index
        | none =>
          prw_loop available target_count max_attempts fuel g used fb.2
            (attempts + 1) (word_index + 1)
    else (g, used, oracle)

/-- Model of `WordPlacer.place_remaining_words(target_count)` (with the default
`max_attempts=1000`): returns the committed word count and the final state. -/
def place_remaining_words (g : Grid) (word_list : List WordEntry)
    (used : List (List Char)) (target_count : Nat) (oracle : List Nat) :
    Nat × Grid × List (List Char) × List Nat :=
  let available_words := candidate_queue word_list used
  let res := prw_loop available_words target_count PLACER_MAX_ATTEMPTS
    ((available_words.length + 1) * (PLACER_MAX_ATTEMPTS + 1)) g used oracle 0 0
  (res.1.placed_words.length, res)

/-! ### Validator (validator.py) -/

def MIN_WORDS : Nat := 8

def VALIDATOR_MIN_GRID_SIZE : Nat := 6

def MIN_FILL_DENSITY : Rat := mkRat 3 10

def MAX_FILL_DENSITY : Rat := mkRat 7 10

instance : Inhabited PlacedWord := ⟨⟨[], "", "", 0, 0, ""⟩⟩

/-- Model of `Validator.check_intersections(grid, words)`: every cell claimed by a
placed word is on the board and holds the expected letter.  (Error texts are
abbreviated; only emptiness of the list is ever consumed.) -/
def check_intersections (g : Grid) (words : List PlacedWord) : List String :=
  let grid_array := to_array g
  if grid_array = [] then []
  else
    let grid_height := grid_array.length
    let grid_width := (grid_array.getD 0 []).length
    words.flatMap fun placed =>
      placed.word.enum.flatMap fun ic =>
        let rc := word_pos placed.row placed.col placed.direction ic.1
        if rc.1 < 0 ∨ (grid_height : Int) ≤ rc.1 ∨ rc.2 < 0 ∨
            (grid_width : Int) ≤ rc.2 then
          ["Слово выходит за границы сетки"]
        else if (grid_array.getD rc.1.toNat []).length ≤ rc.2.toNat then
          ["Слово выходит за границы строки"]
        else if (grid_array.getD rc.1.toNat []).getD rc.2.toNat none ≠ some ic.2 then
          ["Несовпадение букв"]
        else []

/-- Model of `Validator._get_word_cells(word)` as a list (the source uses a set). -/
def get_word_cells (p : PlacedWord) : List (Int × Int) :=
  (List.range p.length).map fun i => word_pos p.row p.col p.direction i

/-- Model of `Validator._words_intersect(word1, word2)`: the two words share a cell. -/
def words_intersect (p q : PlacedWord) : Bool :=
  (get_word_cells p).any fun c => (get_word_cells q).contains c

/-- The adjacency sets built by `check_all_words_connected`: neighbours of
node `i` are the other indices whose words intersect it (the source inserts
both ends of each edge `i < j`; as a set this is the same). -/
def adjacency (words : List PlacedWord) (i : Nat) : List Nat :=
  (List.range words.length).filter fun j =>
    decide (i ≠ j) && words_intersect (words.getD i default) (words.getD j default)

/-- The BFS loop of `check_all_words_connected`, with structural fuel.
Each enqueued index is simultaneously appended to the duplicate-free
`visited`, whose members all lie below the node count `n`, so at most
`n + 1` dequeues ever happen; the fuel `(n + 1)·(n + 1)` supplied by
`check_all_words_connected` is never exhausted. -/
def bfs_loop (adj : Nat → List Nat) : Nat → List Nat → List Nat → List Nat
  | 0, visited, _ => visited
  | fuel + 1, visited, queue =>
    match queue with
    | [] => visited
    | current :: rest =>
      let newcomers := (adj current).filter fun j => decide (j ∉ visited)
      bfs_loop adj fuel (visited ++ newcomers) (rest ++ newcomers)

/-- Model of `Validator.check_all_words_connected(words)`: BFS from node 0 reaches
every word. -/
def check_all_words_connected (words : List PlacedWord) : Bool :=
  if words.length ≤ 1 then true
  else
    let visited := bfs_loop (adjacency words)
      ((words.length + 1) * (words.length + 1)) [0] [0]
    decide (visited.length = words.length)

/-- Model of `range(start, start+len)` over `Int`, as used by
`_are_parallel_adjacent`. -/
def int_range (start : Int) (len : Nat) : List Int :=
  (List.range len).map fun (i : Nat) => start + (i : Int)

/-- Model of `Validator._are_parallel_adjacent(word1, word2)`: perpendicular offset
exactly 1 and overlapping parallel-axis extents. -/
def are_parallel_adjacent (w1 w2 : PlacedWord) : Bool :=
  if w1.direction = "horizontal" then
    decide ((w1.row - w2.row).natAbs = 1) &&
    (int_range w1.col w1.length).any fun x => (int_range w2.col w2.length).contains x
  else
    decide ((w1.col - w2.col).natAbs = 1) &&
    (int_range w1.row w1.length).any fun x => (int_range w2.row w2.length).contains x

/-- Model of `Validator.check_no_adjacent_parallel(grid)`: no pair of same-direction
placed words is parallel-adjacent. -/
def check_no_adjacent_parallel (g : Grid) : Bool :=
  let words := get_placed_words g
  !((List.range words.length).any fun i =>
      (List.range words.length).any fun j =>
        decide (i < j) &&
        (let w1 := words.getD i default
         let w2 := words.getD j default
         decide (w1.direction = w2.direction) && are_parallel_adjacent w1 w2))

/-- The duplicate-word scan of `validate_crossword`: one error per word
already seen before it. -/
def dup_errors (seen : List (List Char)) : List PlacedWord → List String
  | [] => []
  | p :: ps =>
    (if p.word ∈ seen then ["Дублирующееся слово"] else []) ++
    dup_errors (p.word :: seen) ps

/-- Model of `Validator.validate_crossword(grid)` (with `words=None`, as the
generator calls it): collects all errors; valid iff none. -/
def validate_crossword (g : Grid) : Bool × List String :=
  let words := get_placed_words g
  let density := get_fill_density g
  let errors :=
    (if words.length < MIN_WORDS then ["Недостаточно слов"] else []) ++
    check_intersections g words ++
    (if check_all_words_connected words then [] else ["Не все слова связаны"]) ++
    (if density < MIN_FILL_DENSITY then ["Слишком низкая плотность"] else []) ++
    (if MAX_FILL_DENSITY < density then ["Слишком высокая плотность"] else []) ++
    dup_errors [] words ++
    (words.flatMap fun p => if p.word.length < 3 then ["Слово слишком короткое"] else [])
  (decide (errors = []), errors)

/-! ### Generator (generator.py) -/

def DEFAULT_GRID_SIZE : Nat := 10

def GENERATOR_MIN_GRID_SIZE : Nat := 6

/-- One entry of the produced `words` array (`PlacedWord.to_dict`). -/
structure WordOut where
  word : List Char
  clue : String
  hint : String
  startRow : Int
  startCol : Int
  direction : String
  length : Nat
  deriving Repr, DecidableEq

/-- Model of `PlacedWord.to_dict()`. -/
def to_dict (p : PlacedWord) : WordOut :=
  ⟨p.word, p.clue, p.hint, p.row, p.col, p.direction, p.length⟩

structure Metadata where
  word_count : Nat
  grid_size : Nat × Nat
  fill_density : Rat
  deriving Repr, DecidableEq

/-- The JSON-shaped generation result (difficulty and category are filled in
by `generate` afterwards and carry no content here). -/
structure GenerationResult where
  grid : List (List (Option Char))
  words : List WordOut
  metadata : Metadata
  deriving Repr, DecidableEq

/-- Python `round(x, 2)` (round half to even) on the nonnegative exact
rationals produced by `get_fill_density`. -/
def round_half_even2 (q : Rat) : Rat :=
  let a : Nat := 100 * q.num.toNat
  let d : Nat := q.den
  let f : Nat := a / d
  let r : Nat := a % d
  let k : Nat :=
    if 2 * r < d then f
    else if d < 2 * r then f + 1
    else if f % 2 = 0 then f
    else f + 1
  mkRat (k : Int) 100

/-- Model of `CrosswordGenerator._format_result(grid)`. -/
def format_result (g : Grid) : GenerationResult :=
  let placed_words := get_placed_words g
  let grid_array := to_array g
  { grid := grid_array
    words := placed_words.map to_dict
    metadata :=
      { word_count := placed_words.length
        grid_size :=
          (grid_array.length,
           if grid_array ≠ [] then (grid_array.getD 0 []).length else 0)
        fill_density := round_half_even2 (get_fill_density g) } }

/-- Model of `CrosswordGenerator._generate_single(words, target_count, settings)`:
one generation attempt.  Seeds the first word, places the rest, enforces the
word-count floor, crops, enforces the minimal board side, validates, and
formats; `none` on any failure. -/
def generate_single (words : List WordEntry) (target_count : Nat)
    (oracle : List Nat) : Option GenerationResult :=
  let grid := Grid.init DEFAULT_GRID_SIZE
  let init := place_initial_word grid words oracle
  if !init.1.1 then none
  else
    let prw := place_remaining_words init.1.2.1 words init.1.2.2 target_count init.2
    if prw.1 < MIN_WORDS then none
    else
      let cr := crop_empty_edges prw.2.1
      if cr.1.1 < GENERATOR_MIN_GRID_SIZE ∨ cr.1.2 < GENERATOR_MIN_GRID_SIZE then none
      else
        let v := validate_crossword cr.2
        if !v.1 then none
        else some (format_result cr.2)

/-! ### C10: purity of `can_place_word`

The source method performs only reads.  To let that be a theorem rather
than a modelling choice, the method is translated a second time in
store-passing style: every call it makes receives the current grid state and
returns a possibly-updated one, mirroring the Python statement order.  The
claim is then that this faithful stateful interpretation returns the pure
value computed by `can_place_word` together with the unchanged input state. -/

/-- Store-passing form of `Grid.get_cell` (a pure read). -/
def get_cellS (g : Grid) (row col : Int) : Option Char × Grid :=
  (get_cell g row col, g)

/-- Store-passing form of `Grid._has_perpendicular_word` (reads only
`placed_words`). -/
def has_perpendicular_wordS (g : Grid) (row col : Int) (direction : String) :
    Bool × Grid :=
  (has_perpendicular_word g row col direction, g)

/-- Store-passing form of `Grid._check_adjacent_cells`. -/
def check_adjacent_cellsS (g : Grid) (row col : Int) (direction : String) :
    Bool × Grid :=
  if direction = "horizontal" then
    let r1 := get_cellS g (row - 1) col
    let r2 := get_cellS r1.2 (row + 1) col
    if r1.1 ≠ none ∨ r2.1 ≠ none then has_perpendicular_wordS r2.2 row col "vertical"
    else (true, r2.2)
  else
    let r1 := get_cellS g row (col - 1)
    let r2 := get_cellS r1.2 row (col + 1)
    if r1.1 ≠ none ∨ r2.1 ≠ none then has_perpendicular_wordS r2.2 row col "horizontal"
    else (true, r2.2)

/-- Store-passing form of the per-letter loop of `can_place_word`; stops at
the first failing position, as the source's early `return False` does. -/
def letter_loopS (row col : Int) (direction : String) :
    List (Nat × Char) → Grid → Bool × Grid
  | [], g => (true, g)
  | ic :: rest, g =>
    let rc := word_pos row col direction ic.1
    let cur := get_cellS g rc.1 rc.2
    match cur.1 with
    | some c =>
      if c = ic.2 then letter_loopS row col direction rest cur.2
      else (false, cur.2)
    | none =>
      let adj := check_adjacent_cellsS cur.2 rc.1 rc.2 direction
      if adj.1 then letter_loopS row col direction rest adj.2
      else (false, adj.2)

/-- Store-passing form of the end-cap checks of `can_place_word`. -/
def end_capsS (g : Grid) (len : Nat) (row col : Int) (direction : String) :
    Bool × Grid :=
  if direction = "horizontal" then
    let r1 := get_cellS g row (col - 1)
    if 0 < col ∧ r1.1 ≠ none then (false, r1.2)
    else
      let r2 := get_cellS r1.2 row (col + len)
      if col + (len : Int) < (r2.2.width : Int) ∧ r2.1 ≠ none then (false, r2.2)
      else (true, r2.2)
  else
    let r1 := get_cellS g (row - 1) col
    if 0 < row ∧ r1.1 ≠ none then (false, r1.2)
    else
      let r2 := get_cellS r1.2 (row + len) col
      if row + (len : Int) < (r2.2.height : Int) ∧ r2.1 ≠ none then (false, r2.2)
      else (true, r2.2)

/-- Store-passing form of `Grid.can_place_word`, mirroring the source's
statement order and early returns. -/
def can_place_wordS (g : Grid) (word : List Char) (row col : Int)
    (direction : String) : Bool × Grid :=
  let w := upWord word
  let len := w.length
  if row < 0 ∨ col < 0 then (false, g)
  else if direction = "horizontal" ∧
      ((g.width : Int) < col + (len : Int) ∨ (g.height : Int) ≤ row) then (false, g)
  else if ¬(direction = "horizontal") ∧
      ((g.height : Int) < row + (len : Int) ∨ (g.width : Int) ≤ col) then (false, g)
  else
    let lp := letter_loopS row col direction w.enum g
    if lp.1 then end_capsS lp.2 len row col direction
    else (false, lp.2)

/-- Well-formedness of a grid state: the cell array has exactly
`height` rows of exactly `width` cells. -/
def WellFormed (g : Grid) : Prop :=
  g.cells.length = g.height ∧ ∀ row ∈ g.cells, row.length = g.width

instance (g : Grid) : Decidable (WellFormed g) := by
  unfold WellFormed; infer_instance

/-- One write of the letter loop. -/
def write_step (row col : Int) (direction : String) (acc : Grid)
    (ic : Nat × Char) : Grid :=
  set_cell acc (word_pos row col direction ic.1).1
    (word_pos row col direction ic.1).2 ic.2

/-- Perpendicular direction, as the claim phrases it. -/
def perp_dir (direction : String) : String :=
  if direction = "horizontal" then "vertical" else "horizontal"

/-- The claim's side-contact condition at a cell: a filled neighbour
perpendicular to the placement direction. -/
def side_neighbor_filled (g : Grid) (r c : Int) (direction : String) : Prop :=
  if direction = "horizontal" then
    get_cell g (r - 1) c ≠ none ∨ get_cell g (r + 1) c ≠ none
  else
    get_cell g r (c - 1) ≠ none ∨ get_cell g r (c + 1) ≠ none

instance (g : Grid) (r c : Int) (d : String) : Decidable (side_neighbor_filled g r c d) := by
  unfold side_neighbor_filled
  infer_instance

/-- Consistency of the board with the committed words: every cell of every
placed word holds the corresponding letter. -/
def GridConsistent (g : Grid) : Prop :=
  ∀ p ∈ g.placed_words, ∀ ic ∈ p.word.enum,
    get_cell g (word_pos p.row p.col p.direction ic.1).1
      (word_pos p.row p.col p.direction ic.1).2 = some ic.2

instance (g : Grid) : Decidable (GridConsistent g) := by
  unfold GridConsistent; infer_instance

/-- The intersection-graph edge relation on word indices, as the claim
describes it: distinct indices whose words share a cell. -/
def word_links (words : List PlacedWord) (i j : Nat) : Prop :=
  i < words.length ∧ j < words.length ∧ i ≠ j ∧
    words_intersect (words.getD i default) (words.getD j default) = true

/-- Connectivity of the word-intersection graph: every node is reachable
from node 0. -/
def WordsConnected (words : List PlacedWord) : Prop :=
  ∀ i < words.length, Relation.ReflTransGen (word_links words) 0 i

instance : Inhabited WordOut := ⟨⟨[], "", "", 0, 0, "", 0⟩⟩

/-- Cells occupied by an output word. -/
def out_cells (w : WordOut) : List (Int × Int) :=
  (List.range w.length).map fun i => word_pos w.startRow w.startCol w.direction i

/-- The word-intersection graph on the output words: edges join distinct
indices whose words share a cell. -/
def out_links (ws : List WordOut) (i j : Nat) : Prop :=
  i < ws.length ∧ j < ws.length ∧ i ≠ j ∧
    ∃ c, c ∈ out_cells (ws.getD i default) ∧ c ∈ out_cells (ws.getD j default)

/-- Connectivity of the output word-intersection graph. -/
def OutConnected (ws : List WordOut) : Prop :=
  ∀ i < ws.length, Relation.ReflTransGen (out_links ws) 0 i

/-- The claim's geometric condition: perpendicular offset exactly 1 and
overlapping parallel-axis extents. -/
def ParallelAdjacent (w1 w2 : PlacedWord) : Prop :=
  if w1.direction = "horizontal" then
    (w1.row - w2.row).natAbs = 1 ∧
    ∃ x : Int, (w1.col ≤ x ∧ x < w1.col + w1.length) ∧
      (w2.col ≤ x ∧ x < w2.col + w2.length)
  else
    (w1.col - w2.col).natAbs = 1 ∧
    ∃ x : Int, (w1.row ≤ x ∧ x < w1.row + w1.length) ∧
      (w2.row ≤ x ∧ x < w2.row + w2.length)

/-! Model of `app.generate_crossword_id`: MD5 (RFC 1321) over the canonical
JSON serialization, first 16 hex characters. -/

def not32 (x : Nat) : Nat := 4294967295 - x

def rotl32 (x s : Nat) : Nat := (x % 2 ^ (32 - s)) * 2 ^ s + x / 2 ^ (32 - s)

def md5F (b c d : Nat) : Nat := Nat.lor (Nat.land b c) (Nat.land (not32 b) d)

def md5G (b c d : Nat) : Nat := Nat.lor (Nat.land b d) (Nat.land c (not32 d))

def md5H (b c d : Nat) : Nat := Nat.xor b (Nat.xor c d)

def md5I (b c d : Nat) : Nat := Nat.xor c (Nat.lor b (not32 d))

def md5K : List Nat :=
  [0xd76aa478, 0xe8c7b756, 0x242070db, 0xc1bdceee,
   0xf57c0faf, 0x4787c62a, 0xa8304613, 0xfd469501,
   0x698098d8, 0x8b44f7af, 0xffff5bb1, 0x895cd7be,
   0x6b901122, 0xfd987193, 0xa679438e, 0x49b40821,
   0xf61e2562, 0xc040b340, 0x265e5a51, 0xe9b6c7aa,
   0xd62f105d, 0x02441453, 0xd8a1e681, 0xe7d3fbc8,
   0x21e1cde6, 0xc33707d6, 0xf4d50d87, 0x455a14ed,
   0xa9e3e905, 0xfcefa3f8, 0x676f02d9, 0x8d2a4c8a,
   0xfffa3942, 0x8771f681, 0x6d9d6122, 0xfde5380c,
   0xa4beea44, 0x4bdecfa9, 0xf6bb4b60, 0xbebfbc70,
   0x289b7ec6, 0xeaa127fa, 0xd4ef3085, 0x04881d05,
   0xd9d4d039, 0xe6db99e5, 0x1fa27cf8, 0xc4ac5665,
   0xf4292244, 0x432aff97, 0xab9423a7, 0xfc93a039,
   0x655b59c3, 0x8f0ccc92, 0xffeff47d, 0x85845dd1,
   0x6fa87e4f, 0xfe2ce6e0, 0xa3014314, 0x4e0811a1,
   0xf7537e82, 0xbd3af235, 0x2ad7d2bb, 0xeb86d391]

def md5S : List Nat :=
  [7, 12, 17, 22, 7, 12, 17, 22, 7, 12, 17, 22, 7, 12, 17, 22,
   5, 9, 14, 20, 5, 9, 14, 20, 5, 9, 14, 20, 5, 9, 14, 20,
   4, 11, 16, 23, 4, 11, 16, 23, 4, 11, 16, 23, 4, 11, 16, 23,
   6, 10, 15, 21, 6, 10, 15, 21, 6, 10, 15, 21, 6, 10, 15, 21]

def md5Round (M : List Nat) (st : Nat × Nat × Nat × Nat) (i : Nat) :
    Nat × Nat × Nat × Nat :=
  let a := st.1
  let b := st.2.1
  let c := st.2.2.1
  let d := st.2.2.2
  let fg : Nat × Nat :=
    if i < 16 then (md5F b c d, i)
    else if i < 32 then (md5G b c d, (5 * i + 1) % 16)
    else if i < 48 then (md5H b c d, (3 * i + 5) % 16)
    else (md5I b c d, (7 * i) % 16)
  let tmp := (fg.1 + a + md5K.getD i 0 + M.getD fg.2 0) % 4294967296
  (d, (b + rotl32 tmp (md5S.getD i 0)) % 4294967296, b, c)

def md5Chunk (st : Nat × Nat × Nat × Nat) (chunk : List Nat) :
    Nat × Nat × Nat × Nat :=
  let M := (List.range 16).map fun j =>
    chunk.getD (4 * j) 0 + 256 * chunk.getD (4 * j + 1) 0 +
    65536 * chunk.getD (4 * j + 2) 0 + 16777216 * chunk.getD (4 * j + 3) 0
  let r := (List.range 64).foldl (md5Round M) st
  ((st.1 + r.1) % 4294967296, (st.2.1 + r.2.1) % 4294967296,
   (st.2.2.1 + r.2.2.1) % 4294967296, (st.2.2.2 + r.2.2.2) % 4294967296)

def le8 (n : Nat) : List Nat :=
  [n % 256, n / 256 % 256, n / 65536 % 256, n / 16777216 % 256,
   n / 4294967296 % 256, n / 1099511627776 % 256,
   n / 281474976710656 % 256, n / 72057594037927936 % 256]

def le4 (n : Nat) : List Nat :=
  [n % 256, n / 256 % 256, n / 65536 % 256, n / 16777216 % 256]

def md5Pad (msg : List Nat) : List Nat :=
  let len := msg.length
  let z := (56 + 64 - (len + 1) % 64) % 64
  msg ++ [128] ++ List.replicate z 0 ++ le8 ((8 * len) % 18446744073709551616)

def chunks64 (l : List Nat) : List (List Nat) :=
  let r := l.foldl
    (fun (acc : List (List Nat) × List Nat) b =>
      let cur := acc.2 ++ [b]
      if cur.length = 64 then (acc.1 ++ [cur], []) else (acc.1, cur))
    ([], [])
  r.1 ++ (if r.2 = [] then [] else [r.2])

def md5Bytes (msg : List Nat) : List Nat :=
  let st := (chunks64 (md5Pad msg)).foldl md5Chunk
    (0x67452301, 0xefcdab89, 0x98badcfe, 0x10325476)
  le4 st.1 ++ le4 st.2.1 ++ le4 st.2.2.1 ++ le4 st.2.2.2

def hexChar (n : Nat) : Char :=
  if n < 10 then Char.ofNat (48 + n) else Char.ofNat (87 + n)

def byteHex (b : Nat) : List Char := [hexChar (b / 16), hexChar (b % 16)]

def md5Hexdigest (msg : List Nat) : List Char := (md5Bytes msg).flatMap byteHex

def utf8Char (c : Char) : List Nat :=
  let n := c.toNat
  if n < 128 then [n]
  else if n < 2048 then [192 + n / 64, 128 + n % 64]
  else if n < 65536 then [224 + n / 4096, 128 + n / 64 % 64, 128 + n % 64]
  else [240 + n / 262144, 128 + n / 4096 % 64, 128 + n / 64 % 64, 128 + n % 64]

def utf8 (s : List Char) : List Nat := s.flatMap utf8Char

def jsonEscapeChar (c : Char) : List Char :=
  if c = '\\' then ['\\', '\\']
  else if c = '"' then ['\\', '"']
  else if 32 ≤ c.toNat then [c]
  else if c.toNat = 8 then ['\\', 'b']
  else if c.toNat = 9 then ['\\', 't']
  else if c.toNat = 10 then ['\\', 'n']
  else if c.toNat = 12 then ['\\', 'f']
  else if c.toNat = 13 then ['\\', 'r']
  else ['\\', 'u', '0', '0', hexChar (c.toNat / 16), hexChar (c.toNat % 16)]

def jsonString (s : List Char) : List Char :=
  '"' :: s.flatMap jsonEscapeChar ++ ['"']

def jsonCell (c : Option Char) : List Char :=
  match c with
  | none => jsonString []
  | some ch => jsonString [ch]

def joinComma (items : List (List Char)) : List Char :=
  List.intercalate (", ".toList) items

def jsonArray (items : List (List Char)) : List Char :=
  '[' :: joinComma items ++ [']']

def natDecAux : Nat → Nat → List Char
  | 0, _ => []
  | _ + 1, n =>
    if n < 10 then [Char.ofNat (48 + n)]
    else natDecAux n (n / 10) ++ [Char.ofNat (48 + n % 10)]

def natDec (n : Nat) : List Char := natDecAux (n + 1) n

def intDec (n : Int) : List Char :=
  if n < 0 then '-' :: natDec n.natAbs else natDec n.toNat

def jsonWordObj (w : WordOut) : List Char :=
  "\x7b\"direction\": ".toList ++ jsonString w.direction.toList ++
  ", \"startCol\": ".toList ++ intDec w.startCol ++
  ", \"startRow\": ".toList ++ intDec w.startRow ++
  ", \"word\": ".toList ++ jsonString w.word ++ "\x7d".toList

def canonical_content (grid : List (List (Option Char))) (words : List WordOut) :
    List Char :=
  "\x7b\"grid\": ".toList ++ jsonArray (grid.map fun row => jsonArray (row.map jsonCell)) ++
  ", \"words\": ".toList ++ jsonArray (words.map jsonWordObj) ++ "\x7d".toList

def generate_crossword_id (grid : List (List (Option Char)))
    (words : List WordOut) : List Char :=
  (md5Hexdigest (utf8 (canonical_content grid words))).take 16

def hex_digits : List Char := "0123456789abcdef".toList

/-! ### Concrete inputs for the witnesses and counterexamples -/

/-- A twelve-word Russian input list used to exercise the full generation
pipeline. -/
def EX_words : List WordEntry :=
  ["КАРТИНА", "МОЛОКО", "СОБАКА", "ГОРОД", "ТОЧКА", "РЕКА", "ОКНО",
   "НОС", "КОТ", "ДОМ", "САД", "ЛЕС"].map fun s => ⟨s.toList, "п", "н"⟩

/-- A deterministic randomness oracle: `random.choice` always picks the
first candidate. -/
def EX_oracle : List Nat := List.replicate 60 0

/-- The cropped final grid state the generate path builds from `EX_words`
under `EX_oracle` (the grid whose `format_result` the pipeline returns). -/
def EX_grid : Grid :=
  (crop_empty_edges (place_remaining_words
    (place_initial_word (Grid.init DEFAULT_GRID_SIZE) EX_words EX_oracle).1.2.1
    EX_words
    (place_initial_word (Grid.init DEFAULT_GRID_SIZE) EX_words EX_oracle).1.2.2
    10
    (place_initial_word (Grid.init DEFAULT_GRID_SIZE) EX_words EX_oracle).2).2.1).2

/-- A size-10 grid with the single word `АТОМ` committed at (5,0)
horizontally. -/
def g_atom_alone : Grid :=
  (place_word (Grid.init 10) "АТОМ".toList "c" "h" 5 0 "horizontal").2

/-- First placement of `АТОМ` at (5,0) horizontally on an empty board. -/
def g_atom1 : Bool × Grid :=
  place_word (Grid.init 10) "АТОМ".toList "частица" "x" 5 0 "horizontal"

/-- Second placement of the same word `АТОМ` at the same position. -/
def g_atom2 : Bool × Grid :=
  place_word g_atom1.2 "АТОМ".toList "ядро" "y" 5 0 "horizontal"

/-- A board with one word away from the edges, for the crop witness. -/
def crop_demo : Grid :=
  (place_word (Grid.init 10) "ТЕСТ".toList "c" "h" 5 5 "horizontal").2

/-- A small board for the fingerprint witness. -/
def id_demo_grid : List (List (Option Char)) :=
  [[some 'А', none], [none, some 'Б']]

/-- A one-word output list for the fingerprint witness. -/
def id_demo_words : List WordOut :=
  [⟨"АБ".toList, "c", "h", 0, 0, "vertical", 2⟩]

/-! ### Theorems -/

/-! ### Basic lemmas about uppercasing -/

theorem char_le_iff {a b : Char} : a ≤ b ↔ a.toNat ≤ b.toNat := Iff.rfl

theorem char_toNat_inj {a b : Char} (h : a.toNat = b.toNat) : a = b :=
  Char.ext (UInt32.ext h)

theorem char_toNat_ofNat {n : Nat} (h : n < 55296) : (Char.ofNat n).toNat = n := by
  have hv : n.isValidChar := Or.inl h
  rw [Char.ofNat, dif_pos hv]
  rfl

/-- Output characters of `upChar` never satisfy any of its three lowercase
tests again. -/
theorem upChar_not_lower (c : Char) :
    ¬(0x430 ≤ (upChar c).toNat ∧ (upChar c).toNat ≤ 0x44F) ∧
    (upChar c).toNat ≠ 1105 ∧
    ¬(97 ≤ (upChar c).toNat ∧ (upChar c).toNat ≤ 122) := by
  unfold upChar
  split
  · next h =>
    rw [char_toNat_ofNat (by omega)]
    refine ⟨by omega, by omega, by omega⟩
  · split
    · exact ⟨by decide, by decide, by decide⟩
    · split
      · next h1 h2 h3 =>
        have ha : 97 ≤ c.toNat := char_le_iff.mp h3.1
        have hb : c.toNat ≤ 122 := char_le_iff.mp h3.2
        rw [char_toNat_ofNat (by omega)]
        refine ⟨by omega, by omega, by omega⟩
      · next h1 h2 h3 =>
        refine ⟨h1, fun he => h2 (char_toNat_inj (by rw [he]; decide)), ?_⟩
        intro hc
        exact h3 ⟨char_le_iff.mpr hc.1, char_le_iff.mpr hc.2⟩

theorem upChar_eq_self {d : Char}
    (h1 : ¬(0x430 ≤ d.toNat ∧ d.toNat ≤ 0x44F)) (h2 : d ≠ 'ё')
    (h3 : ¬('a' ≤ d ∧ d ≤ 'z')) : upChar d = d := by
  unfold upChar
  rw [if_neg h1, if_neg h2, if_neg h3]

theorem upChar_idem (c : Char) : upChar (upChar c) = upChar c := by
  obtain ⟨h1, h2, h3⟩ := upChar_not_lower c
  refine upChar_eq_self h1 (fun he => h2 (by rw [he]; decide)) ?_
  intro hc
  exact h3 ⟨char_le_iff.mp hc.1, char_le_iff.mp hc.2⟩

theorem upWord_idem (w : List Char) : upWord (upWord w) = upWord w := by
  simp only [upWord, List.map_map]
  exact List.map_congr_left fun c _ => upChar_idem c

theorem getD_set_self {α : Type} (l : List α) (i : Nat) (a d : α)
    (h : i < l.length) : (l.set i a).getD i d = a := by
  simp [List.getD_eq_getElem?_getD, List.getElem?_set_self h]

theorem getD_set_ne {α : Type} (l : List α) {i j : Nat} (h : i ≠ j) (a d : α) :
    (l.set i a).getD j d = l.getD j d := by
  simp [List.getD_eq_getElem?_getD, List.getElem?_set_ne h]

theorem getD_eq_getElem_of_lt {α : Type} (l : List α) (i : Nat) (d : α)
    (h : i < l.length) : l.getD i d = l[i] := by
  simp [List.getD_eq_getElem?_getD, List.getElem?_eq_getElem h]

theorem set_cell_height (g : Grid) (r c : Int) (ch : Char) :
    (set_cell g r c ch).height = g.height := by
  unfold set_cell; split <;> rfl

theorem set_cell_width (g : Grid) (r c : Int) (ch : Char) :
    (set_cell g r c ch).width = g.width := by
  unfold set_cell; split <;> rfl

theorem set_cell_placed (g : Grid) (r c : Int) (ch : Char) :
    (set_cell g r c ch).placed_words = g.placed_words := by
  unfold set_cell; split <;> rfl

theorem set_cell_wf {g : Grid} (hwf : WellFormed g) (r c : Int) (ch : Char) :
    WellFormed (set_cell g r c ch) := by
  obtain ⟨h1, h2⟩ := hwf
  unfold set_cell WellFormed
  split
  · by_cases hr : r.toNat < g.cells.length
    · refine ⟨by simpa using h1, ?_⟩
      intro row hrow
      simp only at hrow
      rcases List.mem_or_eq_of_mem_set hrow with h | h
      · exact h2 row h
      · subst h
        rw [List.length_set, getD_eq_getElem_of_lt _ _ _ hr]
        exact h2 _ (List.getElem_mem hr)
    · rw [List.set_eq_of_length_le (Nat.le_of_not_lt hr)]
      exact ⟨h1, h2⟩
  · exact ⟨h1, h2⟩

theorem get_cell_set_cell_same {g : Grid} (hwf : WellFormed g) {r c : Int}
    (hb : 0 ≤ r ∧ r < g.height ∧ 0 ≤ c ∧ c < g.width) (ch : Char) :
    get_cell (set_cell g r c ch) r c = some ch := by
  have hr : r.toNat < g.cells.length := by rw [hwf.1]; omega
  have hrowlen : (g.cells.getD r.toNat []).length = g.width := by
    rw [getD_eq_getElem_of_lt _ _ _ hr]
    exact hwf.2 _ (List.getElem_mem hr)
  have hc : c.toNat < (g.cells.getD r.toNat []).length := by rw [hrowlen]; omega
  unfold set_cell get_cell Grid.cellAt
  rw [if_pos hb]
  simp only
  rw [if_pos hb]
  rw [getD_set_self _ _ _ _ hr, getD_set_self _ _ _ _ hc]

theorem get_cell_set_cell_ne (g : Grid) {r c r2 c2 : Int}
    (h : ¬(r2 = r ∧ c2 = c)) (ch : Char) :
    get_cell (set_cell g r c ch) r2 c2 = get_cell g r2 c2 := by
  unfold set_cell
  split
  · next hb =>
    unfold get_cell Grid.cellAt
    simp only
    split
    · next hb2 =>
      by_cases hrr : r2.toNat = r.toNat
      · have hre : r2 = r := by omega
        have hce : c2 ≠ c := fun hc => h ⟨hre, hc⟩
        have hcc : c2.toNat ≠ c.toNat := by omega
        by_cases hr : r.toNat < g.cells.length
        · rw [hrr, getD_set_self _ _ _ _ hr, getD_set_ne _ (fun hx => hcc hx.symm)]
        · rw [List.set_eq_of_length_le (Nat.le_of_not_lt hr)]
      · rw [getD_set_ne _ (fun hx => hrr hx.symm)]
    · next hb2 => rfl
  · rfl

theorem write_letters_eq_foldl (g : Grid) (w : List Char) (row col : Int)
    (direction : String) :
    write_letters g w row col direction = w.enum.foldl (write_step row col direction) g := rfl

theorem foldl_write_placed (row col : Int) (direction : String) :
    ∀ (l : List (Nat × Char)) (g : Grid),
      (l.foldl (write_step row col direction) g).placed_words = g.placed_words ∧
      (l.foldl (write_step row col direction) g).height = g.height ∧
      (l.foldl (write_step row col direction) g).width = g.width
  | [], g => ⟨rfl, rfl, rfl⟩
  | x :: rest, g => by
    rw [List.foldl_cons]
    have ih := foldl_write_placed row col direction rest (write_step row col direction g x)
    exact ⟨ih.1.trans (set_cell_placed ..), ih.2.1.trans (set_cell_height ..),
      ih.2.2.trans (set_cell_width ..)⟩

theorem foldl_write_wf (row col : Int) (direction : String) :
    ∀ (l : List (Nat × Char)) {g : Grid}, WellFormed g →
      WellFormed (l.foldl (write_step row col direction) g)
  | [], _, hwf => hwf
  | x :: rest, g, hwf => by
    rw [List.foldl_cons]
    exact foldl_write_wf row col direction rest (set_cell_wf hwf _ _ _)

theorem word_pos_inj (row col : Int) (direction : String) {i j : Nat}
    (h : word_pos row col direction i = word_pos row col direction j) : i = j := by
  unfold word_pos at h
  split at h
  · have h2 : col + (i : Int) = col + (j : Int) := congrArg Prod.snd h
    omega
  · have h2 : row + (i : Int) = row + (j : Int) := congrArg Prod.fst h
    omega

/-- Bounds information carried by a successful cell read. -/
theorem get_cell_some_bounds {g : Grid} {r c : Int} {ch : Char}
    (hg : get_cell g r c = some ch) :
    (0 ≤ r ∧ r < g.height ∧ 0 ≤ c ∧ c < g.width) ∧
    r.toNat < g.cells.length ∧ c.toNat < (g.cells.getD r.toNat []).length := by
  by_cases hb : 0 ≤ r ∧ r < (g.height : Int) ∧ 0 ≤ c ∧ c < (g.width : Int)
  · refine ⟨hb, ?_, ?_⟩
    · by_contra hr
      rw [get_cell, if_pos hb, Grid.cellAt] at hg
      rw [List.getD_eq_getElem?_getD g.cells,
        List.getElem?_eq_none (Nat.le_of_not_lt hr)] at hg
      simp at hg
    · by_contra hc
      rw [get_cell, if_pos hb, Grid.cellAt] at hg
      rw [List.getD_eq_getElem?_getD (g.cells.getD r.toNat []),
        List.getElem?_eq_none (Nat.le_of_not_lt hc)] at hg
      simp at hg
  · rw [get_cell, if_neg hb] at hg
    simp at hg

/-- Writing to a cell that was readable lands: the cell then reads back the
written letter. -/
theorem get_cell_set_cell_of_some {g : Grid} {r c : Int} {a : Char}
    (hg : get_cell g r c = some a) (ch : Char) :
    get_cell (set_cell g r c ch) r c = some ch := by
  obtain ⟨hb, hr, hc⟩ := get_cell_some_bounds hg
  unfold set_cell get_cell Grid.cellAt
  rw [if_pos hb]
  simp only
  rw [if_pos hb]
  rw [getD_set_self _ _ _ _ hr, getD_set_self _ _ _ _ hc]

/-- Once a cell holds `some ch`, a run of writes that writes only `ch`
to that cell (or writes elsewhere) keeps it at `some ch`. -/
theorem foldl_write_sticky (row col : Int) (direction : String) (p : Int × Int)
    (ch : Char) :
    ∀ (l : List (Nat × Char)) (g : Grid),
      get_cell g p.1 p.2 = some ch →
      (∀ jc ∈ l, word_pos row col direction jc.1 = p → jc.2 = ch) →
      get_cell (l.foldl (write_step row col direction) g) p.1 p.2 = some ch
  | [], g, hg, _ => hg
  | x :: rest, g, hg, hl => by
    rw [List.foldl_cons]
    refine foldl_write_sticky row col direction p ch rest _ ?_
      (fun jc hjc => hl jc (List.mem_cons_of_mem _ hjc))
    by_cases hp : word_pos row col direction x.1 = p
    · have hx : x.2 = ch := hl x (List.mem_cons_self ..) hp
      unfold write_step
      rw [hp, hx]
      exact get_cell_set_cell_of_some hg ch
    · unfold write_step
      rw [get_cell_set_cell_ne _
        (fun hx => hp (Prod.ext_iff.mpr ⟨hx.1.symm, hx.2.symm⟩)) _]
      exact hg

/-- After the letter loop, the cell of every entry of the list holds that
entry's letter, provided entries with equal positions carry equal letters
and each write is in bounds. -/
theorem foldl_write_get (row col : Int) (direction : String) (i : Nat) (ch : Char) :
    ∀ (l : List (Nat × Char)) (g : Grid), WellFormed g →
      (i, ch) ∈ l →
      (∀ jc ∈ l, jc.1 = i → jc.2 = ch) →
      (0 ≤ (word_pos row col direction i).1 ∧
        (word_pos row col direction i).1 < g.height ∧
        0 ≤ (word_pos row col direction i).2 ∧
        (word_pos row col direction i).2 < g.width) →
      get_cell (l.foldl (write_step row col direction) g)
        (word_pos row col direction i).1 (word_pos row col direction i).2 = some ch
  | [], _, _, hmem, _, _ => absurd hmem (List.not_mem_nil _)
  | x :: rest, g, hwf, hmem, huniq, hb => by
    rw [List.foldl_cons]
    by_cases hp : x.1 = i
    · have hx : x.2 = ch := huniq x (List.mem_cons_self ..) hp
      have hland : get_cell (write_step row col direction g x)
          (word_pos row col direction i).1 (word_pos row col direction i).2 = some ch := by
        unfold write_step
        rw [hp, hx]
        exact get_cell_set_cell_same hwf hb _
      exact foldl_write_sticky row col direction _ ch rest _ hland
        (fun jc hjc hpos => huniq jc (List.mem_cons_of_mem _ hjc) (word_pos_inj row col direction hpos))
    · have hmem2 : (i, ch) ∈ rest := by
        rcases List.mem_cons.mp hmem with h | h
        · exact absurd (congrArg Prod.fst h.symm) hp
        · exact h
      have hb2 : 0 ≤ (word_pos row col direction i).1 ∧
          (word_pos row col direction i).1 < (write_step row col direction g x).height ∧
          0 ≤ (word_pos row col direction i).2 ∧
          (word_pos row col direction i).2 < (write_step row col direction g x).width := by
        unfold write_step
        rw [set_cell_height, set_cell_width]
        exact hb
      exact foldl_write_get row col direction i ch rest _
        (set_cell_wf hwf _ _ _) hmem2
        (fun jc hjc => huniq jc (List.mem_cons_of_mem _ hjc)) hb2

theorem can_place_word_upWord (g : Grid) (w : List Char) (row col : Int)
    (direction : String) :
    can_place_word g (upWord w) row col direction =
      can_place_word g w row col direction := by
  unfold can_place_word
  rw [upWord_idem]

theorem can_place_bounds {g : Grid} {word : List Char} {row col : Int}
    {direction : String} (h : can_place_word g word row col direction = true) :
    ∀ i < (upWord word).length,
      0 ≤ (word_pos row col direction i).1 ∧
      (word_pos row col direction i).1 < g.height ∧
      0 ≤ (word_pos row col direction i).2 ∧
      (word_pos row col direction i).2 < g.width := by
  unfold can_place_word at h
  simp only [Bool.and_eq_true, decide_eq_true_eq] at h
  obtain ⟨⟨⟨⟨hr0, hc0⟩, hbound⟩, _⟩, _⟩ := h
  intro i hi
  unfold word_pos
  by_cases hd : direction = "horizontal"
  · rw [if_pos hd] at hbound ⊢
    simp only [Bool.and_eq_true, decide_eq_true_eq] at hbound
    refine ⟨hr0, hbound.2, by omega, by omega⟩
  · rw [if_neg hd] at hbound ⊢
    simp only [Bool.and_eq_true, decide_eq_true_eq] at hbound
    refine ⟨by omega, by omega, hc0, hbound.2⟩

theorem mem_enum_of_lt {α : Type} (l : List α) (i : Nat) (h : i < l.length) :
    (i, l[i]) ∈ l.enum := by
  have hl : i < l.enum.length := by rw [List.enum_length]; exact h
  have := List.getElem_enum l i hl
  rw [← this]
  exact List.getElem_mem hl

theorem enum_uniq {α : Type} (l : List α) (i : Nat) (h : i < l.length)
    (jc : Nat × α) (hjc : jc ∈ l.enum) (hj : jc.1 = i) : jc.2 = l[i] := by
  obtain ⟨j, c⟩ := jc
  rw [List.mk_mem_enum_iff_get?] at hjc
  simp only at hj
  subst hj
  rw [List.get?_eq_getElem? , List.getElem?_eq_getElem h] at hjc
  exact (Option.some_inj.mp hjc).symm

theorem get_cell_update_placed (g : Grid) (l : List PlacedWord) (r c : Int) :
    get_cell { g with placed_words := l } r c = get_cell g r c := rfl

/-- Evaluation of `place_word` when the check succeeds. -/
theorem place_word_true {g : Grid} {word : List Char} {clue hnt : String}
    {row col : Int} {direction : String}
    (h : can_place_word g word row col direction = true) :
    place_word g word clue hnt row col direction =
      (true,
       { write_letters g (upWord word) row col direction with
         placed_words := (write_letters g (upWord word) row col direction).placed_words ++
           [⟨upWord word, clue, hnt, row, col, direction⟩] }) := by
  unfold place_word
  rw [if_pos ((can_place_word_upWord g word row col direction).trans h)]

/-- Evaluation of `place_word` when the check fails. -/
theorem place_word_false {g : Grid} {word : List Char} {clue hnt : String}
    {row col : Int} {direction : String}
    (h : can_place_word g word row col direction = false) :
    place_word g word clue hnt row col direction = (false, g) := by
  unfold place_word
  rw [if_neg (by rw [can_place_word_upWord, h]; simp)]

/-- Claim C2: soundness of `place_word` on well-formed grids (the only grids
the source ever builds): it succeeds and mutates exactly when
`can_place_word` holds of the same arguments; on failure the state is
untouched; on success it appends one `PlacedWord` and writes the uppercased
word's letters along the chosen line. -/
theorem place_word_spec (g : Grid) (word : List Char) (clue hnt : String)
    (row col : Int) (direction : String) (hwf : WellFormed g) :
    ((place_word g word clue hnt row col direction).1 =
        can_place_word g word row col direction) ∧
    (can_place_word g word row col direction = false →
      (place_word g word clue hnt row col direction).2 = g) ∧
    (can_place_word g word row col direction = true →
      (place_word g word clue hnt row col direction).2.placed_words =
          g.placed_words ++ [⟨upWord word, clue, hnt, row, col, direction⟩] ∧
      ∀ i (hi : i < (upWord word).length),
        get_cell (place_word g word clue hnt row col direction).2
            (word_pos row col direction i).1 (word_pos row col direction i).2 =
          some ((upWord word)[i])) ∧
    ((place_word g word clue hnt row col direction).2 ≠ g ↔
      can_place_word g word row col direction = true) := by
  cases hcp : can_place_word g word row col direction with
  | false =>
    rw [place_word_false hcp]
    refine ⟨rfl, fun _ => rfl, fun h => absurd h (by simp), by simp⟩
  | true =>
    rw [place_word_true hcp]
    have hplaced : (write_letters g (upWord word) row col direction).placed_words =
        g.placed_words :=
      (foldl_write_placed row col direction (upWord word).enum g).1
    refine ⟨rfl, fun h => absurd h (by simp), fun _ => ⟨?_, ?_⟩, ?_⟩
    · simp only [hplaced]
    · intro i hi
      rw [get_cell_update_placed]
      rw [write_letters_eq_foldl]
      exact foldl_write_get row col direction i ((upWord word)[i])
        (upWord word).enum g hwf (mem_enum_of_lt _ i hi)
        (fun jc hjc hj => enum_uniq _ i hi jc hjc hj)
        (can_place_bounds hcp i hi)
    · constructor
      · intro _; rfl
      · intro _ heq
        have hlen := congrArg (fun s => s.placed_words.length) heq
        simp only [hplaced] at hlen
        simp at hlen

theorem check_adjacent_cellsS_eq (g : Grid) (row col : Int) (direction : String) :
    check_adjacent_cellsS g row col direction =
      (check_adjacent_cells g row col direction, g) := by
  simp only [check_adjacent_cellsS, check_adjacent_cells, get_cellS,
    has_perpendicular_wordS]
  split <;> split <;> rfl

theorem letter_loopS_eq (row col : Int) (direction : String) :
    ∀ (l : List (Nat × Char)) (g : Grid),
      letter_loopS row col direction l g =
        (l.all (fun ic => letter_cell_ok g row col direction ic.1 ic.2), g)
  | [], g => rfl
  | ic :: rest, g => by
    simp only [letter_loopS, get_cellS, List.all_cons]
    cases hc : get_cell g (word_pos row col direction ic.1).1
        (word_pos row col direction ic.1).2 with
    | none =>
      rw [check_adjacent_cellsS_eq]
      by_cases hadj : check_adjacent_cells g (word_pos row col direction ic.1).1
          (word_pos row col direction ic.1).2 direction
      · simp only [hadj, if_pos trivial, letter_loopS_eq row col direction rest g]
        simp [letter_cell_ok, hc, hadj]
      · simp only [Bool.not_eq_true] at hadj
        simp [hadj, letter_cell_ok, hc]
    | some c =>
      by_cases hcc : c = ic.2
      · simp only [hcc, if_pos trivial, letter_loopS_eq row col direction rest g]
        simp [letter_cell_ok, hc, hcc]
      · simp [hcc, letter_cell_ok, hc]

theorem end_capsS_eq (g : Grid) (len : Nat) (row col : Int) (direction : String) :
    end_capsS g len row col direction = (end_caps_ok g len row col direction, g) := by
  simp only [end_capsS, end_caps_ok, get_cellS]
  split
  · split
    · next h =>
      simp [Int.not_le.mpr h.1, h.2]
    · next h =>
      push_neg at h
      split
      · next h2 => simp [Int.not_le.mpr h2.1, h2.2]
      · next h2 =>
        push_neg at h2
        by_cases hcol : 0 < col
        · simp [h hcol, Int.not_le.mpr hcol]
          by_cases hw : (g.width : Int) ≤ col + (len : Int)
          · simp [hw]
          · simp [hw, h2 (by omega)]
        · simp [Int.not_lt.mp hcol]
          by_cases hw : (g.width : Int) ≤ col + (len : Int)
          · simp [hw]
          · simp [hw, h2 (by omega)]
  · split
    · next h =>
      simp [Int.not_le.mpr h.1, h.2]
    · next h =>
      push_neg at h
      split
      · next h2 => simp [Int.not_le.mpr h2.1, h2.2]
      · next h2 =>
        push_neg at h2
        by_cases hrow : 0 < row
        · simp [h hrow, Int.not_le.mpr hrow]
          by_cases hw : (g.height : Int) ≤ row + (len : Int)
          · simp [hw]
          · simp [hw, h2 (by omega)]
        · simp [Int.not_lt.mp hrow]
          by_cases hw : (g.height : Int) ≤ row + (len : Int)
          · simp [hw]
          · simp [hw, h2 (by omega)]

/-- Claim C10: `can_place_word` is pure: the stateful model of the source
(which threads the grid through every helper) returns exactly the Boolean of
the functional model together with the unchanged grid. -/
theorem can_place_wordS_pure (g : Grid) (word : List Char) (row col : Int)
    (direction : String) :
    can_place_wordS g word row col direction =
      (can_place_word g word row col direction, g) := by
  simp only [can_place_wordS, can_place_word]
  split
  · next h =>
    rcases h with h | h
    · simp [show ¬(0 ≤ row) by omega]
    · simp [show ¬(0 ≤ col) by omega]
  · next hneg =>
    push_neg at hneg
    split
    · next h =>
      obtain ⟨hdir, h2⟩ := h
      rcases h2 with h2 | h2
      · simp [hdir, show ¬(col + ((upWord word).length : Int) ≤ (g.width : Int)) by omega]
      · simp [hdir, show ¬(row < (g.height : Int)) by omega]
    · next hneg2 =>
      split
      · next h =>
        obtain ⟨hdir, h2⟩ := h
        rcases h2 with h2 | h2
        · simp [hdir, show ¬(row + ((upWord word).length : Int) ≤ (g.height : Int)) by omega]
        · simp [hdir, show ¬(col < (g.width : Int)) by omega]
      · next hneg3 =>
        rw [letter_loopS_eq]
        by_cases hall : (upWord word).enum.all
            (fun ic => letter_cell_ok g row col direction ic.1 ic.2)
        · simp only [hall, if_pos trivial, end_capsS_eq]
          by_cases hdir : direction = "horizontal"
          · have hb := hneg2
            rw [not_and] at hb
            have hb2 := hb hdir
            push_neg at hb2
            simp [hdir, show 0 ≤ row by omega, show 0 ≤ col by omega,
              show col + ((upWord word).length : Int) ≤ (g.width : Int) by omega,
              show row < (g.height : Int) by omega, hall]
          · have hb := hneg3
            rw [not_and] at hb
            have hb2 := hb hdir
            push_neg at hb2
            simp [hdir, show 0 ≤ row by omega, show 0 ≤ col by omega,
              show row + ((upWord word).length : Int) ≤ (g.height : Int) by omega,
              show col < (g.width : Int) by omega, hall]
        · simp only [Bool.not_eq_true] at hall
          simp [hall, show 0 ≤ row by omega, show 0 ≤ col by omega]

theorem check_adjacent_cells_false (g : Grid) (r c : Int) (direction : String)
    (hside : side_neighbor_filled g r c direction)
    (hperp : has_perpendicular_word g r c (perp_dir direction) = false) :
    check_adjacent_cells g r c direction = false := by
  unfold side_neighbor_filled at hside
  unfold perp_dir at hperp
  unfold check_adjacent_cells
  by_cases hdir : direction = "horizontal" <;>
    simp_all

/-- Claim C4: `can_place_word` returns false whenever some cell the word
would newly write (a currently empty cell) has a filled neighbor
perpendicular to the placement direction while no committed word of the
perpendicular direction runs through that cell. -/
theorem can_place_word_rejects_parallel_touch (g : Grid) (word : List Char) (row col : Int) (direction : String)
    (h : ∃ i ∈ List.range (upWord word).length,
        get_cell g (word_pos row col direction i).1 (word_pos row col direction i).2
          = none ∧
        side_neighbor_filled g (word_pos row col direction i).1
          (word_pos row col direction i).2 direction ∧
        has_perpendicular_word g (word_pos row col direction i).1
          (word_pos row col direction i).2 (perp_dir direction) = false) :
    can_place_word g word row col direction = false := by
  obtain ⟨i, hmem, hcell, hside, hperp⟩ := h
  rw [List.mem_range] at hmem
  by_contra hc
  rw [Bool.not_eq_false] at hc
  unfold can_place_word at hc
  simp only [Bool.and_eq_true, List.all_eq_true] at hc
  obtain ⟨⟨_, hall⟩, _⟩ := hc
  have hlen : i < (upWord word).enum.length := by
    rw [List.enum_length]; exact hmem
  have hmem2 : (upWord word).enum[i] ∈ (upWord word).enum := List.getElem_mem hlen
  have := hall _ hmem2
  rw [List.getElem_enum] at this
  rw [letter_cell_ok] at this
  simp only [hcell] at this
  rw [check_adjacent_cells_false g _ _ direction hside hperp] at this
  exact absurd this (by simp)

theorem foldl_count_eq (p : Nat × Char → Prop) [DecidablePred p] :
    ∀ (l : List (Nat × Char)) (init : Nat),
      l.foldl (fun cnt x => if p x then cnt + 1 else cnt) init =
        init + l.countP (fun x => decide (p x))
  | [], init => by simp
  | x :: rest, init => by
    rw [List.foldl_cons, List.countP_cons]
    by_cases hx : p x
    · rw [if_pos hx, foldl_count_eq p rest (init + 1)]
      simp [hx]
      omega
    · rw [if_neg hx, foldl_count_eq p rest init]
      simp [hx]

theorem count_intersections_eq (g : Grid) (w : List Char) (row col : Int)
    (d : String) :
    count_intersections g w row col d =
      w.enum.countP (fun ic =>
        decide (get_cell g (word_pos row col d ic.1).1
          (word_pos row col d ic.1).2 = some ic.2)) := by
  unfold count_intersections
  rw [foldl_count_eq (fun ic => get_cell g (word_pos row col d ic.1).1
    (word_pos row col d ic.1).2 = some ic.2)]
  simp

theorem countP_pos_of_mem {α : Type} (p : α → Bool) (l : List α) (x : α)
    (hx : x ∈ l) (hp : p x = true) : 1 ≤ l.countP p := by
  rw [Nat.succ_le_iff, List.countP_pos_iff]
  exact ⟨x, hx, hp⟩

theorem mem_enum_snd {α : Type} {l : List α} {jc : Nat × α} (h : jc ∈ l.enum) :
    ∃ hj : jc.1 < l.length, jc.2 = l[jc.1] := by
  obtain ⟨j, c⟩ := jc
  rw [List.mk_mem_enum_iff_getElem?] at h
  have hj : j < l.length := by
    by_contra hn
    rw [List.getElem?_eq_none (Nat.le_of_not_lt hn)] at h
    exact Option.noConfusion h
  rw [List.getElem?_eq_getElem hj] at h
  exact ⟨hj, (Option.some_inj.mp h).symm⟩

/-- Claim C5: every candidate returned by `get_intersections` on a consistent
grid is placeable, runs perpendicular to the committed word it was paired
with, and its crossing count — the number of cells already holding the
matching letter — is at least 1. -/
theorem get_intersections_spec (g : Grid) (word : List Char)
    (hcons : GridConsistent g) :
    ∀ t ∈ get_intersections g word,
      can_place_word g word t.1 t.2.1 t.2.2.1 = true ∧
      (∃ p ∈ g.placed_words, t.2.2.1 = perp_dir p.direction) ∧
      t.2.2.2 = (upWord word).enum.countP (fun ic =>
        decide (get_cell g (word_pos t.1 t.2.1 t.2.2.1 ic.1).1
          (word_pos t.1 t.2.1 t.2.2.1 ic.1).2 = some ic.2)) ∧
      1 ≤ t.2.2.2 := by
  intro t ht
  unfold get_intersections at ht
  simp only [List.mem_flatMap] at ht
  obtain ⟨p, hp, ip, hip, jw, hjw, ht⟩ := ht
  by_cases hmatch : ip.2 = jw.2
  · rw [if_pos hmatch] at ht
    by_cases hcan : can_place_word g (upWord word)
        (if p.direction = "horizontal" then p.row - (jw.1 : Int) else p.row + (ip.1 : Int))
        (if p.direction = "horizontal" then p.col + (ip.1 : Int) else p.col - (jw.1 : Int))
        (if p.direction = "horizontal" then "vertical" else "horizontal") = true
    · rw [if_pos hcan, List.mem_singleton] at ht
      subst ht
      simp only
      obtain ⟨hjlt, hjval⟩ := mem_enum_snd hjw
      obtain ⟨hilt, hival⟩ := mem_enum_snd hip
      have hcell : get_cell g
          (word_pos p.row p.col p.direction ip.1).1
          (word_pos p.row p.col p.direction ip.1).2 = some ip.2 :=
        hcons p hp ip hip
      have hposeq :
          word_pos (if p.direction = "horizontal" then p.row - (jw.1 : Int) else p.row + (ip.1 : Int))
            (if p.direction = "horizontal" then p.col + (ip.1 : Int) else p.col - (jw.1 : Int))
            (if p.direction = "horizontal" then "vertical" else "horizontal") jw.1 =
          word_pos p.row p.col p.direction ip.1 := by
        unfold word_pos
        by_cases hd : p.direction = "horizontal"
        · simp only [if_pos hd, if_neg (by decide : ¬("vertical" : String) = "horizontal"), if_true]
          have h1 : p.row - (jw.1 : Int) + (jw.1 : Int) = p.row := by omega
          rw [h1]
        · simp only [if_neg hd, if_pos rfl, if_true]
          have h1 : p.col - (jw.1 : Int) + (jw.1 : Int) = p.col := by omega
          rw [h1]
      refine ⟨?_, ⟨p, hp, rfl⟩, ?_, ?_⟩
      · rw [← can_place_word_upWord]
        exact hcan
      · exact count_intersections_eq g (upWord word) _ _ _
      · rw [count_intersections_eq]
        refine countP_pos_of_mem _ _ jw hjw ?_
        rw [decide_eq_true_eq, hposeq, hcell, hmatch]
    · rw [if_neg hcan] at ht
      exact absurd ht (List.not_mem_nil t)
  · rw [if_neg hmatch] at ht
    exact absurd ht (List.not_mem_nil t)

theorem insert_desc_perm {α : Type} (key : α → Int) (x : α) :
    ∀ l : List α, (insert_desc key x l).Perm (x :: l)
  | [] => List.Perm.refl _
  | y :: ys => by
    unfold insert_desc
    split
    · exact ((insert_desc_perm key x ys).cons y).trans (List.Perm.swap x y ys)
    · exact List.Perm.refl _

theorem sort_desc_perm {α : Type} (key : α → Int) :
    ∀ l : List α, (sort_desc key l).Perm l
  | [] => List.Perm.refl _
  | x :: xs =>
    (insert_desc_perm key x (sort_desc key xs)).trans
      ((sort_desc_perm key xs).cons x)

theorem insert_desc_sorted {α : Type} (key : α → Int) (x : α) {l : List α}
    (hl : l.Sorted (fun a b => key b ≤ key a)) :
    (insert_desc key x l).Sorted (fun a b => key b ≤ key a) := by
  induction l with
  | nil => simp [insert_desc]
  | cons y ys ih =>
    rw [List.sorted_cons] at hl
    unfold insert_desc
    split
    · next hxy =>
      rw [List.sorted_cons]
      refine ⟨?_, ih hl.2⟩
      intro b hb
      rcases List.mem_cons.mp ((insert_desc_perm key x ys).mem_iff.mp hb) with h | h
      · subst h; omega
      · exact hl.1 b h
    · next hxy =>
      rw [List.sorted_cons]
      refine ⟨?_, List.sorted_cons.mpr hl⟩
      intro b hb
      rcases List.mem_cons.mp hb with h | h
      · subst h; omega
      · have := hl.1 b h; omega

theorem sort_desc_sorted {α : Type} (key : α → Int) :
    ∀ l : List α, (sort_desc key l).Sorted (fun a b => key b ≤ key a)
  | [] => List.sorted_nil
  | x :: xs => insert_desc_sorted key x (sort_desc_sorted key xs)

theorem insert_desc_filter {α : Type} (key : α → Int) (x : α) (k : Int)
    (l : List α) :
    (insert_desc key x l).filter (fun a => decide (key a = k)) =
      if key x = k then x :: l.filter (fun a => decide (key a = k))
      else l.filter (fun a => decide (key a = k)) := by
  induction l with
  | nil =>
    unfold insert_desc
    by_cases hx : key x = k <;> simp [hx]
  | cons y ys ih =>
    unfold insert_desc
    split
    · next hxy =>
      rw [List.filter_cons, List.filter_cons, ih]
      by_cases hx : key x = k
      · have hy : ¬(key y = k) := by omega
        simp [hx, hy]
      · by_cases hy : key y = k <;> simp [hx, hy]
    · next hxy =>
      rw [List.filter_cons, List.filter_cons]
      by_cases hx : key x = k <;> simp [hx]

theorem sort_desc_filter {α : Type} (key : α → Int) (k : Int) :
    ∀ l : List α,
      (sort_desc key l).filter (fun a => decide (key a = k)) =
        l.filter (fun a => decide (key a = k))
  | [] => rfl
  | x :: xs => by
    unfold sort_desc
    rw [insert_desc_filter, List.filter_cons, sort_desc_filter key k xs]
    by_cases hx : key x = k <;> simp [hx]

/-- Claim C6 (amended): the working queue of `place_remaining_words` is the
unused part of the input, stable-sorted descending by word LENGTH — not by
the score of `sort_words_by_score`: it is a permutation of the unused input,
its lengths are nonincreasing, and entries of equal length keep their input
order. -/
theorem candidate_queue_spec (word_list : List WordEntry)
    (used : List (List Char)) :
    (candidate_queue word_list used).Perm
        (word_list.filter (fun w => decide (upWord w.word ∉ used))) ∧
    (candidate_queue word_list used).Sorted
        (fun a b => b.word.length ≤ a.word.length) ∧
    ∀ k : Int,
      (candidate_queue word_list used).filter
          (fun w => decide ((w.word.length : Int) = k)) =
        (word_list.filter (fun w => decide (upWord w.word ∉ used))).filter
          (fun w => decide ((w.word.length : Int) = k)) := by
  refine ⟨sort_desc_perm _ _, ?_, fun k => sort_desc_filter _ k _⟩
  have h := sort_desc_sorted (fun w : WordEntry => (w.word.length : Int))
    (word_list.filter (fun w => decide (upWord w.word ∉ used)))
  exact h.imp (by intro a b hab; exact_mod_cast hab)

/-- Claim C6 counterexample: a two-word input on which the queue order
differs from the score ranking: both words are unused, `ОООО` scores
`10·4 + 5·4 = 60` and `ЩЩЩЩЩ` scores `10·5 + 5·0 = 50`, so the score ranking
keeps `ОООО` first, while the queue sorts by bare length and puts `ЩЩЩЩЩ`
first. -/
theorem candidate_queue_ne_score_rank :
    candidate_queue
        [⟨"ОООО".toList, "", ""⟩, ⟨"ЩЩЩЩЩ".toList, "", ""⟩] [] ≠
      sort_words_by_score
        [⟨"ОООО".toList, "", ""⟩, ⟨"ЩЩЩЩЩ".toList, "", ""⟩] := by
  decide

theorem ite_singleton_eq_nil {c : Prop} [Decidable c] {s : String}
    (h : (if c then [s] else []) = []) : ¬c := by
  intro hc
  rw [if_pos hc] at h
  exact List.noConfusion h

theorem dup_errors_spec :
    ∀ (l : List PlacedWord) (seen : List (List Char)),
      dup_errors seen l = [] →
      (l.map PlacedWord.word).Pairwise (· ≠ ·) ∧ ∀ p ∈ l, p.word ∉ seen
  | [], _, _ => ⟨List.Pairwise.nil, by simp⟩
  | p :: ps, seen, h => by
    unfold dup_errors at h
    rw [List.append_eq_nil] at h
    have hps := dup_errors_spec ps (p.word :: seen) h.2
    have hnotin : p.word ∉ seen := ite_singleton_eq_nil h.1
    refine ⟨List.Pairwise.cons ?_ hps.1, ?_⟩
    · intro w hw
      rw [List.mem_map] at hw
      obtain ⟨q, hq, hqw⟩ := hw
      have := hps.2 q hq
      subst hqw
      intro he
      exact this (he ▸ List.mem_cons_self ..)
    · intro q hq
      rcases List.mem_cons.mp hq with h2 | h2
      · subst h2; exact hnotin
      · exact fun hs => hps.2 q h2 (List.mem_cons_of_mem _ hs)

/-- Decomposition of a passing `validate_crossword` run into its six checks. -/
theorem validate_crossword_parts {g : Grid}
    (h : (validate_crossword g).1 = true) :
    MIN_WORDS ≤ (get_placed_words g).length ∧
    check_intersections g (get_placed_words g) = [] ∧
    check_all_words_connected (get_placed_words g) = true ∧
    MIN_FILL_DENSITY ≤ get_fill_density g ∧
    get_fill_density g ≤ MAX_FILL_DENSITY ∧
    ((get_placed_words g).map PlacedWord.word).Pairwise (· ≠ ·) ∧
    ∀ p ∈ get_placed_words g, 3 ≤ p.word.length := by
  unfold validate_crossword at h
  rw [decide_eq_true_eq] at h
  simp only [List.append_eq_nil] at h
  obtain ⟨⟨⟨⟨⟨⟨h1, h2⟩, h3⟩, h4⟩, h5⟩, h6⟩, h7⟩ := h
  refine ⟨Nat.le_of_not_lt (ite_singleton_eq_nil h1), h2, ?_, ?_, ?_, ?_, ?_⟩
  · by_contra hc
    rw [Bool.not_eq_true] at hc
    rw [if_neg (by rw [hc]; simp)] at h3
    exact List.noConfusion h3
  · exact not_lt.mp (ite_singleton_eq_nil h4)
  · exact not_lt.mp (ite_singleton_eq_nil h5)
  · exact (dup_errors_spec _ [] h6).1
  · intro p hp
    have := List.flatMap_eq_nil_iff.mp h7 p hp
    exact Nat.le_of_not_lt (ite_singleton_eq_nil this)

/-- Positions and letters certified by an error-free `check_intersections`
run on a non-empty board. -/
theorem check_intersections_spec {g : Grid} {words : List PlacedWord}
    (h : check_intersections g words = []) (hne : ¬(to_array g = [])) :
    ∀ p ∈ words, ∀ ic ∈ p.word.enum,
      0 ≤ (word_pos p.row p.col p.direction ic.1).1 ∧
      (word_pos p.row p.col p.direction ic.1).1 < ((to_array g).length : Int) ∧
      0 ≤ (word_pos p.row p.col p.direction ic.1).2 ∧
      (word_pos p.row p.col p.direction ic.1).2 <
        (((to_array g).getD 0 []).length : Int) ∧
      ((to_array g).getD (word_pos p.row p.col p.direction ic.1).1.toNat
          []).getD (word_pos p.row p.col p.direction ic.1).2.toNat none =
        some ic.2 := by
  unfold check_intersections at h
  rw [if_neg hne] at h
  rw [List.flatMap_eq_nil_iff] at h
  intro p hp ic hic
  have h2 := List.flatMap_eq_nil_iff.mp (h p hp) ic hic
  set rc := word_pos p.row p.col p.direction ic.1 with hrc
  by_cases hb : rc.1 < 0 ∨ ((to_array g).length : Int) ≤ rc.1 ∨ rc.2 < 0 ∨
      (((to_array g).getD 0 []).length : Int) ≤ rc.2
  · rw [if_pos hb] at h2
    exact List.noConfusion h2
  · rw [if_neg hb] at h2
    push_neg at hb
    by_cases hrow : ((to_array g).getD rc.1.toNat []).length ≤ rc.2.toNat
    · rw [if_pos hrow] at h2
      exact List.noConfusion h2
    · rw [if_neg hrow] at h2
      by_cases hcell : ((to_array g).getD rc.1.toNat []).getD rc.2.toNat none =
          some ic.2
      · exact ⟨by omega, by omega, by omega, by omega, hcell⟩
      · rw [if_pos hcell] at h2
        exact List.noConfusion h2

theorem adjacency_mem {words : List PlacedWord} {cur j : Nat}
    (h : j ∈ adjacency words cur) : j < words.length ∧ cur ≠ j ∧
      words_intersect (words.getD cur default) (words.getD j default) = true := by
  unfold adjacency at h
  rw [List.mem_filter] at h
  obtain ⟨hr, hp⟩ := h
  rw [List.mem_range] at hr
  simp only [Bool.and_eq_true, decide_eq_true_eq] at hp
  exact ⟨hr, hp.1, hp.2⟩

theorem adjacency_nodup (words : List PlacedWord) (cur : Nat) :
    (adjacency words cur).Nodup :=
  (List.nodup_range _).filter _

/-- Soundness of the BFS loop: every index it ever visits is reachable. -/
theorem bfs_loop_sound (words : List PlacedWord) :
    ∀ (fuel : Nat) (visited queue : List Nat),
      (∀ v ∈ visited, Relation.ReflTransGen (word_links words) 0 v) →
      (∀ q ∈ queue, q < words.length ∧
        Relation.ReflTransGen (word_links words) 0 q) →
      ∀ v ∈ bfs_loop (adjacency words) fuel visited queue,
        Relation.ReflTransGen (word_links words) 0 v
  | 0, visited, _, hv, _ => hv
  | fuel + 1, visited, [], hv, _ => hv
  | fuel + 1, visited, cur :: rest, hv, hq => by
    unfold bfs_loop
    apply bfs_loop_sound words fuel
    · intro v hvmem
      rcases List.mem_append.mp hvmem with h | h
      · exact hv v h
      · have hadj := adjacency_mem (List.mem_of_mem_filter h)
        have hcur := hq cur (List.mem_cons_self ..)
        exact hcur.2.tail ⟨(hq cur (List.mem_cons_self ..)).1, hadj.1, hadj.2.1, hadj.2.2⟩
    · intro q hqmem
      rcases List.mem_append.mp hqmem with h | h
      · exact hq q (List.mem_cons_of_mem _ h)
      · have hadj := adjacency_mem (List.mem_of_mem_filter h)
        have hcur := hq cur (List.mem_cons_self ..)
        exact ⟨hadj.1, hcur.2.tail ⟨hcur.1, hadj.1, hadj.2.1, hadj.2.2⟩⟩

/-- The BFS loop preserves "visited is duplicate-free with entries below the
node count". -/
theorem bfs_loop_nodup (words : List PlacedWord) :
    ∀ (fuel : Nat) (visited queue : List Nat),
      visited.Nodup → (∀ v ∈ visited, v < words.length) →
      (bfs_loop (adjacency words) fuel visited queue).Nodup ∧
      ∀ v ∈ bfs_loop (adjacency words) fuel visited queue, v < words.length
  | 0, visited, _, hn, hb => ⟨hn, hb⟩
  | fuel + 1, visited, [], hn, hb => ⟨hn, hb⟩
  | fuel + 1, visited, cur :: rest, hn, hb => by
    unfold bfs_loop
    apply bfs_loop_nodup words fuel
    · rw [List.nodup_append]
      refine ⟨hn, ((adjacency_nodup words cur).filter _), ?_⟩
      intro a ha hb2
      have := List.of_mem_filter hb2
      rw [decide_eq_true_eq] at this
      exact this ha
    · intro v hv
      rcases List.mem_append.mp hv with h | h
      · exact hb v h
      · exact (adjacency_mem (List.mem_of_mem_filter h)).1

/-- A duplicate-free list of naturals below `n` of length `n` contains every
natural below `n`. -/
theorem full_range_of_nodup {l : List Nat} {n : Nat} (hn : l.Nodup)
    (hb : ∀ v ∈ l, v < n) (hl : l.length = n) : ∀ i < n, i ∈ l := by
  intro i hi
  have hsub : l.toFinset ⊆ Finset.range n := by
    intro x hx
    rw [List.mem_toFinset] at hx
    rw [Finset.mem_range]
    exact hb x hx
  have hcard : l.toFinset.card = n := by
    rw [List.toFinset_card_of_nodup hn, hl]
  have heq : l.toFinset = Finset.range n :=
    Finset.eq_of_subset_of_card_le hsub (by rw [hcard, Finset.card_range])
  have : i ∈ l.toFinset := by
    rw [heq, Finset.mem_range]; exact hi
  rwa [List.mem_toFinset] at this

/-- Soundness of `check_all_words_connected`: when it returns `true`, the
word-intersection graph really is connected (from node 0). -/
theorem check_all_words_connected_sound {words : List PlacedWord}
    (h : check_all_words_connected words = true) : WordsConnected words := by
  unfold check_all_words_connected at h
  by_cases hlen : words.length ≤ 1
  · intro i hi
    have : i = 0 := by omega
    subst this
    exact Relation.ReflTransGen.refl
  · rw [if_neg hlen, decide_eq_true_eq] at h
    intro i hi
    have hstart : ∀ v ∈ [0], Relation.ReflTransGen (word_links words) 0 v := by
      intro v hv
      rw [List.mem_singleton] at hv
      subst hv
      exact Relation.ReflTransGen.refl
    have hq : ∀ q ∈ [0], q < words.length ∧
        Relation.ReflTransGen (word_links words) 0 q := by
      intro q hqm
      rw [List.mem_singleton] at hqm
      subst hqm
      exact ⟨by omega, Relation.ReflTransGen.refl⟩
    have hnodup := bfs_loop_nodup words ((words.length + 1) * (words.length + 1))
      [0] [0] (List.nodup_singleton 0) (by intro v hv; rw [List.mem_singleton] at hv; omega)
    have hmem := full_range_of_nodup hnodup.1 hnodup.2 h i hi
    exact bfs_loop_sound words _ [0] [0] hstart hq i hmem

theorem mkRat_eq_div_q (a : Int) (b : Nat) : mkRat a b = (a : ℚ) / (b : ℚ) := by
  rw [Rat.mkRat_eq_divInt, Rat.divInt_eq_div]
  norm_num

/-- Python `round(x, 2)` stays inside the density window `[0.30, 0.70]`. -/
theorem round_half_even2_bounds {q : Rat}
    (h1 : MIN_FILL_DENSITY ≤ q) (h2 : q ≤ MAX_FILL_DENSITY) :
    MIN_FILL_DENSITY ≤ round_half_even2 q ∧
      round_half_even2 q ≤ MAX_FILL_DENSITY := by
  have hmin : MIN_FILL_DENSITY = (3 : ℚ) / 10 := by
    rw [MIN_FILL_DENSITY, mkRat_eq_div_q]; norm_num
  have hmax : MAX_FILL_DENSITY = (7 : ℚ) / 10 := by
    rw [MAX_FILL_DENSITY, mkRat_eq_div_q]; norm_num
  have hq0 : 0 < q := lt_of_lt_of_le (by rw [hmin]; norm_num) h1
  have hnum : 0 < q.num := Rat.num_pos.mpr hq0
  have hden : 0 < q.den := q.den_pos
  have hqd : (q.num : ℚ) / (q.den : ℚ) = q := Rat.num_div_den q
  have hlow : 3 * (q.den : Int) ≤ 10 * q.num := by
    rw [hmin, ← hqd] at h1
    rw [div_le_div_iff (by norm_num) (by exact_mod_cast hden)] at h1
    have h1q : (3 : ℚ) * (q.den : ℚ) ≤ 10 * (q.num : ℚ) := by linarith [h1]
    exact_mod_cast h1q
  have hhigh : 10 * q.num ≤ 7 * (q.den : Int) := by
    rw [hmax, ← hqd] at h2
    rw [div_le_div_iff (by exact_mod_cast hden) (by norm_num)] at h2
    have h2q : (10 : ℚ) * (q.num : ℚ) ≤ 7 * (q.den : ℚ) := by linarith [h2]
    exact_mod_cast h2q
  have htn : (q.num.toNat : Int) = q.num := Int.toNat_of_nonneg (le_of_lt hnum)
  have hlowN : 30 * q.den ≤ 100 * q.num.toNat := by omega
  have hhighN : 100 * q.num.toNat ≤ 70 * q.den := by omega
  unfold round_half_even2
  set a := 100 * q.num.toNat with ha
  set d := q.den with hd
  have hf_lo : 30 ≤ a / d := (Nat.le_div_iff_mul_le hden).mpr (by omega)
  have hf_hi : a / d ≤ 70 := by
    calc a / d ≤ 70 * d / d := Nat.div_le_div_right hhighN
    _ = 70 := Nat.mul_div_cancel 70 hden
  have hmod : d * (a / d) + a % d = a := Nat.div_add_mod a d
  have hrd : a % d < d := Nat.mod_lt a hden
  have hk : 30 ≤ (if 2 * (a % d) < d then a / d
      else if d < 2 * (a % d) then a / d + 1
      else if (a / d) % 2 = 0 then a / d else a / d + 1) ∧
      (if 2 * (a % d) < d then a / d
      else if d < 2 * (a % d) then a / d + 1
      else if (a / d) % 2 = 0 then a / d else a / d + 1) ≤ 70 := by
    split
    · exact ⟨hf_lo, hf_hi⟩
    · next hr1 =>
      have hr : 1 ≤ a % d := by omega
      have hflt : a / d < 70 := by
        rcases Nat.lt_or_ge (a / d) 70 with hlt | hge
        · exact hlt
        · have h70 : a / d = 70 := le_antisymm hf_hi hge
          rw [h70] at hmod
          omega
      split
      · exact ⟨by omega, by omega⟩
      · split
        · exact ⟨by omega, hf_hi⟩
        · exact ⟨by omega, by omega⟩
  constructor
  · rw [hmin, mkRat_eq_div_q]
    rw [div_le_div_iff (by norm_num) (by norm_num)]
    push_cast
    have := hk.1
    exact_mod_cast by linarith [this]
  · rw [hmax, mkRat_eq_div_q]
    rw [div_le_div_iff (by norm_num) (by norm_num)]
    push_cast
    have := hk.2
    exact_mod_cast by linarith [this]

theorem words_intersect_iff (p q : PlacedWord) :
    words_intersect p q = true ↔
      ∃ c, c ∈ get_word_cells p ∧ c ∈ get_word_cells q := by
  unfold words_intersect
  rw [List.any_eq_true]
  constructor
  · rintro ⟨c, hc, hq⟩
    exact ⟨c, hc, by simpa using hq⟩
  · rintro ⟨c, hc, hq⟩
    exact ⟨c, hc, by simpa using hq⟩

theorem out_cells_to_dict (p : PlacedWord) :
    out_cells (to_dict p) = get_word_cells p := rfl

theorem word_links_to_out (placed : List PlacedWord) (i j : Nat)
    (h : word_links placed i j) : out_links (placed.map to_dict) i j := by
  obtain ⟨hi, hj, hne, hint⟩ := h
  have hlen : (placed.map to_dict).length = placed.length := List.length_map ..
  refine ⟨by omega, by omega, hne, ?_⟩
  obtain ⟨c, hc, hq⟩ := (words_intersect_iff _ _).mp hint
  refine ⟨c, ?_, ?_⟩
  · rw [getD_eq_getElem_of_lt _ _ _ (by omega), List.getElem_map,
      out_cells_to_dict, ← getD_eq_getElem_of_lt _ _ _ hi]
    exact hc
  · rw [getD_eq_getElem_of_lt _ _ _ (by omega), List.getElem_map,
      out_cells_to_dict, ← getD_eq_getElem_of_lt _ _ _ hj]
    exact hq

theorem out_connected_of_words (placed : List PlacedWord)
    (h : WordsConnected placed) : OutConnected (placed.map to_dict) := by
  intro i hi
  rw [List.length_map] at hi
  exact (h i hi).mono (word_links_to_out placed)

/-- Shape of a non-trivially cropped grid: exactly the returned number of
rows, each row of the returned width. -/
theorem crop_shape (g : Grid)
    (hpos : 0 < (crop_empty_edges g).1.1) :
    (crop_empty_edges g).2.cells.length = (crop_empty_edges g).1.1 ∧
    (∀ row ∈ (crop_empty_edges g).2.cells,
      row.length = (crop_empty_edges g).1.2) := by
  simp only [crop_empty_edges] at hpos ⊢
  by_cases hcond : (crop_bounds g).2.1 < (crop_bounds g).1
  · rw [if_pos hcond] at hpos
    simp at hpos
  · rw [if_neg hcond] at hpos ⊢
    constructor
    · simp
    · intro row hrow
      rw [List.mem_map] at hrow
      obtain ⟨r, _, hr⟩ := hrow
      subst hr
      simp

/-- Extraction of the successful path through `generate_single`. -/
theorem generate_single_some {words : List WordEntry} {target_count : Nat}
    {oracle : List Nat} {p : GenerationResult}
    (h : generate_single words target_count oracle = some p) :
    ∃ cr : (Nat × Nat) × Grid,
      cr = crop_empty_edges (place_remaining_words
        (place_initial_word (Grid.init DEFAULT_GRID_SIZE) words oracle).1.2.1 words
        (place_initial_word (Grid.init DEFAULT_GRID_SIZE) words oracle).1.2.2
        target_count
        (place_initial_word (Grid.init DEFAULT_GRID_SIZE) words oracle).2).2.1 ∧
      p = format_result cr.2 ∧
      (validate_crossword cr.2).1 = true ∧
      GENERATOR_MIN_GRID_SIZE ≤ cr.1.1 ∧ GENERATOR_MIN_GRID_SIZE ≤ cr.1.2 := by
  simp only [generate_single] at h
  split at h
  · exact absurd h (by simp)
  · split at h
    · exact absurd h (by simp)
    · split at h
      · exact absurd h (by simp)
      · next hsize =>
        split at h
        · exact absurd h (by simp)
        · next hval =>
          rw [Option.some_inj] at h
          push_neg at hsize
          rw [Bool.not_eq_true', Bool.not_eq_false] at hval
          exact ⟨_, rfl, h.symm, hval, hsize.1, hsize.2⟩

set_option maxHeartbeats 1000000 in
/-- Claim C1: every puzzle `generate_single` returns satisfies the validator
postconditions: at least `MIN_WORDS` words, every word of length at least 3,
pairwise distinct word strings, a connected word-intersection graph, fill
density within `[MIN_FILL_DENSITY, MAX_FILL_DENSITY]`, both components of
`metadata.grid_size` at least `GENERATOR_MIN_GRID_SIZE`, and the grid letters
read from `(startRow, startCol)` along each word's direction equal to the
word's letters. -/
theorem generate_single_postconditions (words : List WordEntry) (target_count : Nat)
    (oracle : List Nat) (p : GenerationResult)
    (h : generate_single words target_count oracle = some p) :
    MIN_WORDS ≤ p.words.length ∧
    (∀ w ∈ p.words, 3 ≤ w.word.length) ∧
    (p.words.map WordOut.word).Pairwise (· ≠ ·) ∧
    OutConnected p.words ∧
    MIN_FILL_DENSITY ≤ p.metadata.fill_density ∧
    p.metadata.fill_density ≤ MAX_FILL_DENSITY ∧
    GENERATOR_MIN_GRID_SIZE ≤ p.metadata.grid_size.1 ∧
    GENERATOR_MIN_GRID_SIZE ≤ p.metadata.grid_size.2 ∧
    ∀ w ∈ p.words, ∀ ic ∈ w.word.enum,
      ((p.grid.getD (word_pos w.startRow w.startCol w.direction ic.1).1.toNat
          []).getD
        (word_pos w.startRow w.startCol w.direction ic.1).2.toNat none) =
        some ic.2 := by
  obtain ⟨cr, hcr, hp, hval, hh, hw⟩ := generate_single_some h
  obtain ⟨v1, v2, v3, v4, v5, v6, v7⟩ := validate_crossword_parts hval
  have hh6 : 6 ≤ cr.1.1 := by unfold GENERATOR_MIN_GRID_SIZE at hh; exact hh
  have hw6 : 6 ≤ cr.1.2 := by unfold GENERATOR_MIN_GRID_SIZE at hw; exact hw
  have hshape := crop_shape (place_remaining_words
    (place_initial_word (Grid.init DEFAULT_GRID_SIZE) words oracle).1.2.1 words
    (place_initial_word (Grid.init DEFAULT_GRID_SIZE) words oracle).1.2.2
    target_count
    (place_initial_word (Grid.init DEFAULT_GRID_SIZE) words oracle).2).2.1
    (by rw [← hcr]; omega)
  rw [← hcr] at hshape
  subst hp
  have hne : ¬(to_array cr.2 = []) := by
    unfold to_array
    intro hnil
    rw [hnil] at hshape
    simp at hshape
    omega
  refine ⟨?_, ?_, ?_, ?_, ?_, ?_, ?_, ?_, ?_⟩
  · simp only [format_result]
    rw [List.length_map]
    exact v1
  · intro w hw2
    simp only [format_result] at hw2
    rw [List.mem_map] at hw2
    obtain ⟨q, hq, hqw⟩ := hw2
    subst hqw
    exact v7 q hq
  · simp only [format_result]
    rw [List.map_map]
    exact v6
  · simp only [format_result]
    exact out_connected_of_words _ (check_all_words_connected_sound v3)
  · simp only [format_result]
    exact (round_half_even2_bounds v4 v5).1
  · simp only [format_result]
    exact (round_half_even2_bounds v4 v5).2
  · simp only [format_result]
    unfold to_array
    rw [hshape.1]
    exact hh
  · simp only [format_result]
    rw [if_pos hne]
    have h0 : 0 < (to_array cr.2).length := by
      unfold to_array
      rw [hshape.1]
      omega
    rw [to_array] at h0 ⊢
    rw [getD_eq_getElem_of_lt _ _ _ h0, hshape.2 _ (List.getElem_mem h0)]
    exact hw
  · intro w hw2 ic hic
    simp only [format_result] at hw2 ⊢
    rw [List.mem_map] at hw2
    obtain ⟨q, hq, hqw⟩ := hw2
    subst hqw
    exact (check_intersections_spec v2 hne q hq ic hic).2.2.2.2

theorem mem_pair_list {h w : Nat} {rc : Nat × Nat} :
    rc ∈ pair_list h w ↔ rc.1 < h ∧ rc.2 < w := by
  unfold pair_list
  rw [List.mem_flatMap]
  constructor
  · rintro ⟨r, hr, hm⟩
    rw [List.mem_map] at hm
    obtain ⟨c, hc, hrc⟩ := hm
    rw [List.mem_range] at hr hc
    rw [← hrc]
    exact ⟨hr, hc⟩
  · rintro ⟨h1, h2⟩
    refine ⟨rc.1, List.mem_range.mpr h1, ?_⟩
    rw [List.mem_map]
    exact ⟨rc.2, List.mem_range.mpr h2, rfl⟩

theorem crop_fold_mono (g : Grid) :
    ∀ (l : List (Nat × Nat)) (acc : Nat × Nat × Nat × Nat),
      (l.foldl (crop_step g) acc).1 ≤ acc.1 ∧
      acc.2.1 ≤ (l.foldl (crop_step g) acc).2.1 ∧
      (l.foldl (crop_step g) acc).2.2.1 ≤ acc.2.2.1 ∧
      acc.2.2.2 ≤ (l.foldl (crop_step g) acc).2.2.2
  | [], acc => ⟨le_refl _, le_refl _, le_refl _, le_refl _⟩
  | x :: rest, acc => by
    rw [List.foldl_cons]
    have ih := crop_fold_mono g rest (crop_step g acc x)
    have hstep : (crop_step g acc x).1 ≤ acc.1 ∧ acc.2.1 ≤ (crop_step g acc x).2.1 ∧
        (crop_step g acc x).2.2.1 ≤ acc.2.2.1 ∧ acc.2.2.2 ≤ (crop_step g acc x).2.2.2 := by
      unfold crop_step
      split
      · exact ⟨Nat.min_le_left .., Nat.le_max_left .., Nat.min_le_left .., Nat.le_max_left ..⟩
      · exact ⟨le_refl _, le_refl _, le_refl _, le_refl _⟩
    exact ⟨ih.1.trans hstep.1, hstep.2.1.trans ih.2.1,
      ih.2.2.1.trans hstep.2.2.1, hstep.2.2.2.trans ih.2.2.2⟩

theorem crop_fold_hit (g : Grid) :
    ∀ (l : List (Nat × Nat)) (acc : Nat × Nat × Nat × Nat) (rc : Nat × Nat),
      rc ∈ l → g.cellAt rc.1 rc.2 ≠ none →
      (l.foldl (crop_step g) acc).1 ≤ rc.1 ∧
      rc.1 ≤ (l.foldl (crop_step g) acc).2.1 ∧
      (l.foldl (crop_step g) acc).2.2.1 ≤ rc.2 ∧
      rc.2 ≤ (l.foldl (crop_step g) acc).2.2.2
  | x :: rest, acc, rc, hmem, hhit => by
    rw [List.foldl_cons]
    rcases List.mem_cons.mp hmem with he | he
    · subst he
      have hstep : crop_step g acc rc =
          (min acc.1 rc.1, max acc.2.1 rc.1, min acc.2.2.1 rc.2, max acc.2.2.2 rc.2) := by
        unfold crop_step
        rw [if_pos hhit]
      rw [hstep]
      have ih := crop_fold_mono g rest
        (min acc.1 rc.1, max acc.2.1 rc.1, min acc.2.2.1 rc.2, max acc.2.2.2 rc.2)
      refine ⟨ih.1.trans (Nat.min_le_right ..), le_trans (Nat.le_max_right ..) ih.2.1,
        ih.2.2.1.trans (Nat.min_le_right ..), le_trans (Nat.le_max_right ..) ih.2.2.2⟩
    · exact crop_fold_hit g rest (crop_step g acc x) rc he hhit

theorem crop_fold_nohit (g : Grid) :
    ∀ (l : List (Nat × Nat)) (acc : Nat × Nat × Nat × Nat),
      (∀ rc ∈ l, g.cellAt rc.1 rc.2 = none) →
      l.foldl (crop_step g) acc = acc
  | [], acc, _ => rfl
  | x :: rest, acc, hall => by
    rw [List.foldl_cons]
    have hx : crop_step g acc x = acc := by
      unfold crop_step
      rw [if_neg (by simp [hall x (List.mem_cons_self ..)])]
    rw [hx]
    exact crop_fold_nohit g rest acc (fun rc h => hall rc (List.mem_cons_of_mem _ h))

theorem crop_fold_attain_min_row (g : Grid) :
    ∀ (l : List (Nat × Nat)) (acc : Nat × Nat × Nat × Nat),
      (l.foldl (crop_step g) acc).1 = acc.1 ∨
      ∃ rc ∈ l, g.cellAt rc.1 rc.2 ≠ none ∧ rc.1 = (l.foldl (crop_step g) acc).1
  | [], acc => Or.inl rfl
  | x :: rest, acc => by
    rw [List.foldl_cons]
    by_cases hx : g.cellAt x.1 x.2 ≠ none
    · have hstep : crop_step g acc x =
          (min acc.1 x.1, max acc.2.1 x.1, min acc.2.2.1 x.2, max acc.2.2.2 x.2) := by
        unfold crop_step
        rw [if_pos hx]
      rw [hstep]
      rcases crop_fold_attain_min_row g rest
          (min acc.1 x.1, max acc.2.1 x.1, min acc.2.2.1 x.2, max acc.2.2.2 x.2) with h | h
      · rcases Nat.le_total acc.1 x.1 with hle | hle
        · left
          rw [h]
          simp only
          omega
        · right
          refine ⟨x, List.mem_cons_self .., hx, ?_⟩
          rw [h]
          simp only
          omega
      · obtain ⟨rc, hrc, hh, he⟩ := h
        exact Or.inr ⟨rc, List.mem_cons_of_mem _ hrc, hh, he⟩
    · have hstep : crop_step g acc x = acc := by
        unfold crop_step
        rw [if_neg hx]
      rw [hstep]
      rcases crop_fold_attain_min_row g rest acc with h | h
      · exact Or.inl h
      · obtain ⟨rc, hrc, hh, he⟩ := h
        exact Or.inr ⟨rc, List.mem_cons_of_mem _ hrc, hh, he⟩

theorem crop_fold_attain_max_row (g : Grid) :
    ∀ (l : List (Nat × Nat)) (acc : Nat × Nat × Nat × Nat),
      (l.foldl (crop_step g) acc).2.1 = acc.2.1 ∨
      ∃ rc ∈ l, g.cellAt rc.1 rc.2 ≠ none ∧ rc.1 = (l.foldl (crop_step g) acc).2.1
  | [], acc => Or.inl rfl
  | x :: rest, acc => by
    rw [List.foldl_cons]
    by_cases hx : g.cellAt x.1 x.2 ≠ none
    · have hstep : crop_step g acc x =
          (min acc.1 x.1, max acc.2.1 x.1, min acc.2.2.1 x.2, max acc.2.2.2 x.2) := by
        unfold crop_step
        rw [if_pos hx]
      rw [hstep]
      rcases crop_fold_attain_max_row g rest
          (min acc.1 x.1, max acc.2.1 x.1, min acc.2.2.1 x.2, max acc.2.2.2 x.2) with h | h
      · rcases Nat.le_total acc.2.1 x.1 with hle | hle
        · right
          refine ⟨x, List.mem_cons_self .., hx, ?_⟩
          rw [h]
          simp only
          omega
        · left
          rw [h]
          simp only
          omega
      · obtain ⟨rc, hrc, hh, he⟩ := h
        exact Or.inr ⟨rc, List.mem_cons_of_mem _ hrc, hh, he⟩
    · have hstep : crop_step g acc x = acc := by
        unfold crop_step
        rw [if_neg hx]
      rw [hstep]
      rcases crop_fold_attain_max_row g rest acc with h | h
      · exact Or.inl h
      · obtain ⟨rc, hrc, hh, he⟩ := h
        exact Or.inr ⟨rc, List.mem_cons_of_mem _ hrc, hh, he⟩

theorem crop_fold_attain_min_col (g : Grid) :
    ∀ (l : List (Nat × Nat)) (acc : Nat × Nat × Nat × Nat),
      (l.foldl (crop_step g) acc).2.2.1 = acc.2.2.1 ∨
      ∃ rc ∈ l, g.cellAt rc.1 rc.2 ≠ none ∧ rc.2 = (l.foldl (crop_step g) acc).2.2.1
  | [], acc => Or.inl rfl
  | x :: rest, acc => by
    rw [List.foldl_cons]
    by_cases hx : g.cellAt x.1 x.2 ≠ none
    · have hstep : crop_step g acc x =
          (min acc.1 x.1, max acc.2.1 x.1, min acc.2.2.1 x.2, max acc.2.2.2 x.2) := by
        unfold crop_step
        rw [if_pos hx]
      rw [hstep]
      rcases crop_fold_attain_min_col g rest
          (min acc.1 x.1, max acc.2.1 x.1, min acc.2.2.1 x.2, max acc.2.2.2 x.2) with h | h
      · rcases Nat.le_total acc.2.2.1 x.2 with hle | hle
        · left
          rw [h]
          simp only
          omega
        · right
          refine ⟨x, List.mem_cons_self .., hx, ?_⟩
          rw [h]
          simp only
          omega
      · obtain ⟨rc, hrc, hh, he⟩ := h
        exact Or.inr ⟨rc, List.mem_cons_of_mem _ hrc, hh, he⟩
    · have hstep : crop_step g acc x = acc := by
        unfold crop_step
        rw [if_neg hx]
      rw [hstep]
      rcases crop_fold_attain_min_col g rest acc with h | h
      · exact Or.inl h
      · obtain ⟨rc, hrc, hh, he⟩ := h
        exact Or.inr ⟨rc, List.mem_cons_of_mem _ hrc, hh, he⟩

theorem crop_fold_attain_max_col (g : Grid) :
    ∀ (l : List (Nat × Nat)) (acc : Nat × Nat × Nat × Nat),
      (l.foldl (crop_step g) acc).2.2.2 = acc.2.2.2 ∨
      ∃ rc ∈ l, g.cellAt rc.1 rc.2 ≠ none ∧ rc.2 = (l.foldl (crop_step g) acc).2.2.2
  | [], acc => Or.inl rfl
  | x :: rest, acc => by
    rw [List.foldl_cons]
    by_cases hx : g.cellAt x.1 x.2 ≠ none
    · have hstep : crop_step g acc x =
          (min acc.1 x.1, max acc.2.1 x.1, min acc.2.2.1 x.2, max acc.2.2.2 x.2) := by
        unfold crop_step
        rw [if_pos hx]
      rw [hstep]
      rcases crop_fold_attain_max_col g rest
          (min acc.1 x.1, max acc.2.1 x.1, min acc.2.2.1 x.2, max acc.2.2.2 x.2) with h | h
      · rcases Nat.le_total acc.2.2.2 x.2 with hle | hle
        · right
          refine ⟨x, List.mem_cons_self .., hx, ?_⟩
          rw [h]
          simp only
          omega
        · left
          rw [h]
          simp only
          omega
      · obtain ⟨rc, hrc, hh, he⟩ := h
        exact Or.inr ⟨rc, List.mem_cons_of_mem _ hrc, hh, he⟩
    · have hstep : crop_step g acc x = acc := by
        unfold crop_step
        rw [if_neg hx]
      rw [hstep]
      rcases crop_fold_attain_max_col g rest acc with h | h
      · exact Or.inl h
      · obtain ⟨rc, hrc, hh, he⟩ := h
        exact Or.inr ⟨rc, List.mem_cons_of_mem _ hrc, hh, he⟩

theorem crop_fold_max_row_le (g : Grid) (B : Nat) :
    ∀ (l : List (Nat × Nat)) (acc : Nat × Nat × Nat × Nat),
      (∀ rc ∈ l, rc.1 ≤ B) → acc.2.1 ≤ B →
      (l.foldl (crop_step g) acc).2.1 ≤ B
  | [], _, _, hacc => hacc
  | x :: rest, acc, hall, hacc => by
    rw [List.foldl_cons]
    refine crop_fold_max_row_le g B rest _ (fun rc h => hall rc (List.mem_cons_of_mem _ h)) ?_
    unfold crop_step
    split
    · simp only
      have := hall x (List.mem_cons_self ..)
      omega
    · exact hacc

theorem crop_fold_max_col_le (g : Grid) (B : Nat) :
    ∀ (l : List (Nat × Nat)) (acc : Nat × Nat × Nat × Nat),
      (∀ rc ∈ l, rc.2 ≤ B) → acc.2.2.2 ≤ B →
      (l.foldl (crop_step g) acc).2.2.2 ≤ B
  | [], _, _, hacc => hacc
  | x :: rest, acc, hall, hacc => by
    rw [List.foldl_cons]
    refine crop_fold_max_col_le g B rest _ (fun rc h => hall rc (List.mem_cons_of_mem _ h)) ?_
    unfold crop_step
    split
    · simp only
      have := hall x (List.mem_cons_self ..)
      omega
    · exact hacc

theorem crop_exists_hit {g : Grid} (hh : 0 < g.height)
    (hguard : ¬((crop_bounds g).2.1 < (crop_bounds g).1)) :
    ∃ rc ∈ pair_list g.height g.width, g.cellAt rc.1 rc.2 ≠ none := by
  by_contra hno
  push_neg at hno
  have := crop_fold_nohit g (pair_list g.height g.width)
    (g.height, 0, g.width, 0) (by simpa using hno)
  rw [crop_bounds] at hguard
  rw [this] at hguard
  simp only at hguard
  omega

theorem getD_map_range {α : Type} (f : Nat → α) (n i : Nat) (d : α)
    (h : i < n) : ((List.range n).map f).getD i d = f i := by
  rw [getD_eq_getElem_of_lt _ _ _ (by simpa using h), List.getElem_map,
    List.getElem_range]

/-- Cells of the cropped grid, inside its extent. -/
theorem crop_cellAt (g : Grid)
    (hguard : ¬((crop_bounds g).2.1 < (crop_bounds g).1)) (r c : Nat)
    (hr : r < (crop_bounds g).2.1 - (crop_bounds g).1 + 1)
    (hc : c < (crop_bounds g).2.2.2 - (crop_bounds g).2.2.1 + 1) :
    (crop_empty_edges g).2.cellAt r c =
      g.cellAt ((crop_bounds g).1 + r) ((crop_bounds g).2.2.1 + c) := by
  simp only [crop_empty_edges]
  rw [if_neg hguard]
  unfold Grid.cellAt
  simp only
  rw [getD_map_range _ _ _ _ hr, getD_map_range _ _ _ _ hc]

theorem grid_ext {a b : Grid} (h1 : a.size = b.size) (h2 : a.height = b.height)
    (h3 : a.width = b.width) (h4 : a.cells = b.cells)
    (h5 : a.placed_words = b.placed_words) : a = b := by
  cases a; cases b; simp_all

theorem crop_ne_fst (g : Grid)
    (hg : ¬((crop_bounds g).2.1 < (crop_bounds g).1)) :
    (crop_empty_edges g).1 =
      ((crop_bounds g).2.1 - (crop_bounds g).1 + 1,
       (crop_bounds g).2.2.2 - (crop_bounds g).2.2.1 + 1) := by
  simp only [crop_empty_edges]
  rw [if_neg hg]

theorem crop_ne_height (g : Grid)
    (hg : ¬((crop_bounds g).2.1 < (crop_bounds g).1)) :
    (crop_empty_edges g).2.height = (crop_bounds g).2.1 - (crop_bounds g).1 + 1 := by
  simp only [crop_empty_edges]
  rw [if_neg hg]

theorem crop_ne_width (g : Grid)
    (hg : ¬((crop_bounds g).2.1 < (crop_bounds g).1)) :
    (crop_empty_edges g).2.width =
      (crop_bounds g).2.2.2 - (crop_bounds g).2.2.1 + 1 := by
  simp only [crop_empty_edges]
  rw [if_neg hg]

theorem crop_ne_size (g : Grid)
    (hg : ¬((crop_bounds g).2.1 < (crop_bounds g).1)) :
    (crop_empty_edges g).2.size =
      max ((crop_bounds g).2.1 - (crop_bounds g).1 + 1)
        ((crop_bounds g).2.2.2 - (crop_bounds g).2.2.1 + 1) := by
  simp only [crop_empty_edges]
  rw [if_neg hg]

theorem crop_ne_cells (g : Grid)
    (hg : ¬((crop_bounds g).2.1 < (crop_bounds g).1)) :
    (crop_empty_edges g).2.cells =
      (List.range ((crop_bounds g).2.1 - (crop_bounds g).1 + 1)).map fun r =>
        (List.range ((crop_bounds g).2.2.2 - (crop_bounds g).2.2.1 + 1)).map fun c =>
          g.cellAt ((crop_bounds g).1 + r) ((crop_bounds g).2.2.1 + c) := by
  simp only [crop_empty_edges]
  rw [if_neg hg]

theorem crop_ne_words (g : Grid)
    (hg : ¬((crop_bounds g).2.1 < (crop_bounds g).1)) :
    (crop_empty_edges g).2.placed_words =
      g.placed_words.map fun p =>
        { p with row := p.row - ((crop_bounds g).1 : Int),
                 col := p.col - ((crop_bounds g).2.2.1 : Int) } := by
  simp only [crop_empty_edges]
  rw [if_neg hg]

set_option maxHeartbeats 1000000 in
/-- Claim C8: idempotence of `crop_empty_edges` on any board with at least
one row (on zero-row boards the source indexes out of range and raises, so
the claim is about boards on which the first application returns at all). -/
theorem crop_empty_edges_idem (g : Grid) (hh : 0 < g.height) :
    crop_empty_edges (crop_empty_edges g).2 = crop_empty_edges g := by
  by_cases hguard : (crop_bounds g).2.1 < (crop_bounds g).1
  · have e1 : crop_empty_edges g = ((0, 0), g) := by
      simp only [crop_empty_edges]
      rw [if_pos hguard]
    rw [e1]
    exact e1
  · obtain ⟨rc, hrcmem, hrchit⟩ := crop_exists_hit hh hguard
    have hfold : (pair_list g.height g.width).foldl (crop_step g)
        (g.height, 0, g.width, 0) = crop_bounds g := rfl
    have hrcb := crop_fold_hit g (pair_list g.height g.width)
      (g.height, 0, g.width, 0) rc hrcmem hrchit
    rw [hfold] at hrcb
    -- attained extremes, with their perpendicular coordinates bounded
    have hmr := crop_fold_attain_min_row g (pair_list g.height g.width)
      (g.height, 0, g.width, 0)
    rw [hfold] at hmr
    rcases hmr with he | ⟨rc0, hm0, hh0, he0⟩
    · exfalso
      have := (mem_pair_list.mp hrcmem).1
      simp only at he
      omega
    have hMr0 := crop_fold_attain_max_row g (pair_list g.height g.width)
      (g.height, 0, g.width, 0)
    rw [hfold] at hMr0
    have hMr : ∃ rc1 ∈ pair_list g.height g.width,
        g.cellAt rc1.1 rc1.2 ≠ none ∧ rc1.1 = (crop_bounds g).2.1 := by
      rcases hMr0 with he | h
      · exact ⟨rc, hrcmem, hrchit, by simp only at he; omega⟩
      · exact h
    obtain ⟨rc1, hm1, hh1, he1⟩ := hMr
    have hmc0 := crop_fold_attain_min_col g (pair_list g.height g.width)
      (g.height, 0, g.width, 0)
    rw [hfold] at hmc0
    rcases hmc0 with he | ⟨rc2, hm2, hh2, he2⟩
    · exfalso
      have := (mem_pair_list.mp hrcmem).2
      simp only at he
      omega
    have hMc0 := crop_fold_attain_max_col g (pair_list g.height g.width)
      (g.height, 0, g.width, 0)
    rw [hfold] at hMc0
    have hMc : ∃ rc3 ∈ pair_list g.height g.width,
        g.cellAt rc3.1 rc3.2 ≠ none ∧ rc3.2 = (crop_bounds g).2.2.2 := by
      rcases hMc0 with he | h
      · exact ⟨rc, hrcmem, hrchit, by simp only at he; omega⟩
      · exact h
    obtain ⟨rc3, hm3, hh3, he3⟩ := hMc
    have hb0 := crop_fold_hit g (pair_list g.height g.width)
      (g.height, 0, g.width, 0) rc0 hm0 hh0
    have hb1 := crop_fold_hit g (pair_list g.height g.width)
      (g.height, 0, g.width, 0) rc1 hm1 hh1
    have hb2 := crop_fold_hit g (pair_list g.height g.width)
      (g.height, 0, g.width, 0) rc2 hm2 hh2
    have hb3 := crop_fold_hit g (pair_list g.height g.width)
      (g.height, 0, g.width, 0) rc3 hm3 hh3
    rw [hfold] at hb0 hb1 hb2 hb3
    -- abbreviations for the first crop
    have hg2h := crop_ne_height g hguard
    have hg2w := crop_ne_width g hguard
    -- the bounds of the cropped grid
    have hfold2 : (pair_list (crop_empty_edges g).2.height
        (crop_empty_edges g).2.width).foldl (crop_step (crop_empty_edges g).2)
        ((crop_empty_edges g).2.height, 0, (crop_empty_edges g).2.width, 0) =
        crop_bounds (crop_empty_edges g).2 := rfl
    have hbound2 : crop_bounds (crop_empty_edges g).2 =
        (0, (crop_bounds g).2.1 - (crop_bounds g).1, 0,
         (crop_bounds g).2.2.2 - (crop_bounds g).2.2.1) := by
      have hub_r : (crop_bounds (crop_empty_edges g).2).2.1 ≤
          (crop_bounds g).2.1 - (crop_bounds g).1 := by
        rw [← hfold2]
        refine crop_fold_max_row_le _ _ _ _ ?_ (Nat.zero_le _)
        intro rc4 hrc4
        have := (mem_pair_list.mp hrc4).1
        rw [hg2h] at this
        omega
      have hub_c : (crop_bounds (crop_empty_edges g).2).2.2.2 ≤
          (crop_bounds g).2.2.2 - (crop_bounds g).2.2.1 := by
        rw [← hfold2]
        refine crop_fold_max_col_le _ _ _ _ ?_ (Nat.zero_le _)
        intro rc4 hrc4
        have := (mem_pair_list.mp hrc4).2
        rw [hg2w] at this
        omega
      -- hits inside the cropped grid
      have hhit0 : (crop_empty_edges g).2.cellAt 0 (rc0.2 - (crop_bounds g).2.2.1) ≠ none := by
        rw [crop_cellAt g hguard 0 _ (by omega) (by omega)]
        have hr0 : (crop_bounds g).1 + 0 = rc0.1 := by omega
        have hc0 : (crop_bounds g).2.2.1 + (rc0.2 - (crop_bounds g).2.2.1) = rc0.2 := by
          omega
        rw [hr0, hc0]
        exact hh0
      have hhit1 : (crop_empty_edges g).2.cellAt
          ((crop_bounds g).2.1 - (crop_bounds g).1) (rc1.2 - (crop_bounds g).2.2.1) ≠ none := by
        rw [crop_cellAt g hguard _ _ (by omega) (by omega)]
        have hr1 : (crop_bounds g).1 + ((crop_bounds g).2.1 - (crop_bounds g).1) = rc1.1 := by
          omega
        have hc1 : (crop_bounds g).2.2.1 + (rc1.2 - (crop_bounds g).2.2.1) = rc1.2 := by
          omega
        rw [hr1, hc1]
        exact hh1
      have hhit2 : (crop_empty_edges g).2.cellAt (rc2.1 - (crop_bounds g).1) 0 ≠ none := by
        rw [crop_cellAt g hguard _ 0 (by omega) (by omega)]
        have hr2 : (crop_bounds g).1 + (rc2.1 - (crop_bounds g).1) = rc2.1 := by omega
        have hc2 : (crop_bounds g).2.2.1 + 0 = rc2.2 := by omega
        rw [hr2, hc2]
        exact hh2
      have hhit3 : (crop_empty_edges g).2.cellAt (rc3.1 - (crop_bounds g).1)
          ((crop_bounds g).2.2.2 - (crop_bounds g).2.2.1) ≠ none := by
        rw [crop_cellAt g hguard _ _ (by omega) (by omega)]
        have hr3 : (crop_bounds g).1 + (rc3.1 - (crop_bounds g).1) = rc3.1 := by omega
        have hc3 : (crop_bounds g).2.2.1 +
            ((crop_bounds g).2.2.2 - (crop_bounds g).2.2.1) = rc3.2 := by omega
        rw [hr3, hc3]
        exact hh3
      have hq0 := crop_fold_hit (crop_empty_edges g).2
        (pair_list (crop_empty_edges g).2.height (crop_empty_edges g).2.width)
        ((crop_empty_edges g).2.height, 0, (crop_empty_edges g).2.width, 0)
        (0, rc0.2 - (crop_bounds g).2.2.1)
        (mem_pair_list.mpr (by rw [hg2h, hg2w]; constructor <;> simp <;> omega)) hhit0
      have hq1 := crop_fold_hit (crop_empty_edges g).2
        (pair_list (crop_empty_edges g).2.height (crop_empty_edges g).2.width)
        ((crop_empty_edges g).2.height, 0, (crop_empty_edges g).2.width, 0)
        ((crop_bounds g).2.1 - (crop_bounds g).1, rc1.2 - (crop_bounds g).2.2.1)
        (mem_pair_list.mpr (by rw [hg2h, hg2w]; constructor <;> simp <;> omega)) hhit1
      have hq2 := crop_fold_hit (crop_empty_edges g).2
        (pair_list (crop_empty_edges g).2.height (crop_empty_edges g).2.width)
        ((crop_empty_edges g).2.height, 0, (crop_empty_edges g).2.width, 0)
        (rc2.1 - (crop_bounds g).1, 0)
        (mem_pair_list.mpr (by rw [hg2h, hg2w]; constructor <;> simp <;> omega)) hhit2
      have hq3 := crop_fold_hit (crop_empty_edges g).2
        (pair_list (crop_empty_edges g).2.height (crop_empty_edges g).2.width)
        ((crop_empty_edges g).2.height, 0, (crop_empty_edges g).2.width, 0)
        (rc3.1 - (crop_bounds g).1, (crop_bounds g).2.2.2 - (crop_bounds g).2.2.1)
        (mem_pair_list.mpr (by rw [hg2h, hg2w]; constructor <;> simp <;> omega)) hhit3
      rw [hfold2] at hq0 hq1 hq2 hq3
      have hp1 : (crop_bounds (crop_empty_edges g).2).1 = 0 := by omega
      have hp2 : (crop_bounds (crop_empty_edges g).2).2.1 =
          (crop_bounds g).2.1 - (crop_bounds g).1 := by
        simp only at hq1
        omega
      have hp3 : (crop_bounds (crop_empty_edges g).2).2.2.1 = 0 := by
        simp only at hq2
        omega
      have hp4 : (crop_bounds (crop_empty_edges g).2).2.2.2 =
          (crop_bounds g).2.2.2 - (crop_bounds g).2.2.1 := by
        simp only at hq3
        omega
      exact Prod.ext hp1 (Prod.ext hp2 (Prod.ext hp3 hp4))
    -- guard of the second crop is false
    have hguard2 : ¬((crop_bounds (crop_empty_edges g).2).2.1 <
        (crop_bounds (crop_empty_edges g).2).1) := by
      rw [hbound2]
      simp
    -- assemble the equality of the two crop results
    have hh' : (crop_bounds (crop_empty_edges g).2).2.1 -
        (crop_bounds (crop_empty_edges g).2).1 + 1 =
        (crop_bounds g).2.1 - (crop_bounds g).1 + 1 := by
      rw [hbound2]
      simp
    have hw' : (crop_bounds (crop_empty_edges g).2).2.2.2 -
        (crop_bounds (crop_empty_edges g).2).2.2.1 + 1 =
        (crop_bounds g).2.2.2 - (crop_bounds g).2.2.1 + 1 := by
      rw [hbound2]
      simp
    refine Prod.ext ?_ (grid_ext ?_ ?_ ?_ ?_ ?_)
    · rw [crop_ne_fst _ hguard2, crop_ne_fst _ hguard, hh', hw']
    · rw [crop_ne_size _ hguard2, crop_ne_size _ hguard, hh', hw']
    · rw [crop_ne_height _ hguard2, crop_ne_height _ hguard, hh']
    · rw [crop_ne_width _ hguard2, crop_ne_width _ hguard, hw']
    · rw [crop_ne_cells _ hguard2, crop_ne_cells _ hguard, hh', hw', hbound2]
      refine List.map_congr_left ?_
      intro r hr
      refine List.map_congr_left ?_
      intro c hc
      rw [List.mem_range] at hr hc
      simp only [Nat.zero_add]
      rw [crop_cellAt g hguard r c hr hc]
    · rw [crop_ne_words _ hguard2, crop_ne_words _ hguard, hbound2]
      simp only [Nat.cast_zero, Int.sub_zero]
      rw [List.map_map]
      refine List.map_congr_left ?_
      intro p _
      cases p
      simp

theorem contains_iff_mem {α : Type} [BEq α] [LawfulBEq α] {l : List α}
    {a : α} : l.contains a = true ↔ a ∈ l := List.elem_iff

theorem mem_int_range {s : Int} {n : Nat} {x : Int} :
    x ∈ int_range s n ↔ s ≤ x ∧ x < s + n := by
  unfold int_range
  rw [List.mem_map]
  constructor
  · rintro ⟨i, hi, rfl⟩
    rw [List.mem_range] at hi
    omega
  · rintro ⟨h1, h2⟩
    refine ⟨(x - s).toNat, ?_, by omega⟩
    rw [List.mem_range]
    omega

theorem are_parallel_adjacent_iff (w1 w2 : PlacedWord) :
    are_parallel_adjacent w1 w2 = true ↔ ParallelAdjacent w1 w2 := by
  unfold are_parallel_adjacent ParallelAdjacent
  by_cases hd : w1.direction = "horizontal"
  · rw [if_pos hd, if_pos hd]
    rw [Bool.and_eq_true, decide_eq_true_eq, List.any_eq_true]
    constructor
    · rintro ⟨h1, x, hx1, hx2⟩
      rw [contains_iff_mem] at hx2
      exact ⟨h1, x, mem_int_range.mp hx1, mem_int_range.mp hx2⟩
    · rintro ⟨h1, x, hx1, hx2⟩
      refine ⟨h1, x, mem_int_range.mpr hx1, ?_⟩
      rw [contains_iff_mem]
      exact mem_int_range.mpr hx2
  · rw [if_neg hd, if_neg hd]
    rw [Bool.and_eq_true, decide_eq_true_eq, List.any_eq_true]
    constructor
    · rintro ⟨h1, x, hx1, hx2⟩
      rw [contains_iff_mem] at hx2
      exact ⟨h1, x, mem_int_range.mp hx1, mem_int_range.mp hx2⟩
    · rintro ⟨h1, x, hx1, hx2⟩
      refine ⟨h1, x, mem_int_range.mpr hx1, ?_⟩
      rw [contains_iff_mem]
      exact mem_int_range.mpr hx2

/-- Claim C3 (amended): the predicate `check_no_adjacent_parallel` does hold
exactly when no two same-direction placed words are at perpendicular offset 1
with overlapping parallel-axis extents — but `validate_crossword` never calls
it, and the generate path can return puzzles violating it (see the
counterexample). -/
theorem check_no_adjacent_parallel_iff (g : Grid) :
    check_no_adjacent_parallel g = true ↔
      ∀ i ∈ List.range (get_placed_words g).length,
        ∀ j ∈ List.range (get_placed_words g).length,
          i < j →
          ((get_placed_words g).getD i default).direction =
            ((get_placed_words g).getD j default).direction →
          ¬ParallelAdjacent ((get_placed_words g).getD i default)
            ((get_placed_words g).getD j default) := by
  unfold check_no_adjacent_parallel
  rw [Bool.not_eq_true']
  rw [List.any_eq_false]
  constructor
  · intro h i hi j hj hij hdir hpar
    have h2 := h i hi
    rw [Bool.not_eq_true, List.any_eq_false] at h2
    have h3 := h2 j hj
    simp only [Bool.and_eq_true, decide_eq_true_eq] at h3
    exact h3 ⟨hij, hdir, (are_parallel_adjacent_iff _ _).mpr hpar⟩
  · intro h i hi
    rw [Bool.not_eq_true, List.any_eq_false]
    intro j hj
    simp only [Bool.and_eq_true, decide_eq_true_eq]
    rintro ⟨hij, hdir, hpar⟩
    exact h i hi j hj hij hdir ((are_parallel_adjacent_iff _ _).mp hpar)

theorem flatMap_byteHex_length :
    ∀ l : List Nat, (l.flatMap byteHex).length = 2 * l.length
  | [] => rfl
  | b :: rest => by
    rw [List.flatMap_cons, List.length_append, flatMap_byteHex_length rest]
    simp [byteHex]
    omega

theorem md5Bytes_length (msg : List Nat) : (md5Bytes msg).length = 16 := by
  simp [md5Bytes, le4]

theorem hexChar_mem {n : Nat} (h : n < 16) : hexChar n ∈ hex_digits := by
  have hall : ∀ m < 16, hexChar m ∈ hex_digits := by decide
  exact hall n h

theorem md5Bytes_lt (msg : List Nat) : ∀ b ∈ md5Bytes msg, b < 256 := by
  intro b hb
  simp only [md5Bytes, le4, List.mem_append, List.mem_cons,
    List.not_mem_nil, or_false] at hb
  omega

theorem md5Hexdigest_hex (msg : List Nat) :
    ∀ c ∈ md5Hexdigest msg, c ∈ hex_digits := by
  intro c hc
  unfold md5Hexdigest at hc
  rw [List.mem_flatMap] at hc
  obtain ⟨b, hb, hcb⟩ := hc
  have hblt := md5Bytes_lt msg b hb
  unfold byteHex at hcb
  rcases List.mem_cons.mp hcb with h | h
  · subst h
    exact hexChar_mem (by omega)
  · rw [List.mem_singleton] at h
    subst h
    exact hexChar_mem (by omega)

/-- Claim C9: format and determinism of the crossword fingerprint: it is
exactly the first 16 characters of the MD5 hex digest of the canonical JSON
serialization (sorted keys, non-ASCII preserved), it always has 16
characters, all lowercase hex digits, and equal inputs give equal
fingerprints. -/
theorem generate_crossword_id_spec (grid : List (List (Option Char)))
    (words : List WordOut) :
    (generate_crossword_id grid words).length = 16 ∧
    (∀ c ∈ generate_crossword_id grid words, c ∈ hex_digits) ∧
    generate_crossword_id grid words =
      (md5Hexdigest (utf8 (canonical_content grid words))).take 16 ∧
    ∀ grid2 words2, grid = grid2 → words = words2 →
      generate_crossword_id grid words = generate_crossword_id grid2 words2 := by
  refine ⟨?_, ?_, rfl, ?_⟩
  · unfold generate_crossword_id
    rw [List.length_take]
    unfold md5Hexdigest
    rw [flatMap_byteHex_length, md5Bytes_length]
    omega
  · intro c hc
    unfold generate_crossword_id at hc
    exact md5Hexdigest_hex _ c (List.mem_of_mem_take hc)
  · intro grid2 words2 h1 h2
    rw [h1, h2]

/-! ### Remaining claim theorems, witnesses and counterexamples -/

/-- Claim C7 (amended): a grid that passes `validate_crossword` has pairwise
distinct committed word strings; `place_word` itself never checks for
duplicates (see the counterexample), so uniqueness holds only past the
validator, not on every reachable grid. -/
theorem validate_implies_nodup_words (g : Grid)
    (h : (validate_crossword g).1 = true) :
    ((get_placed_words g).map PlacedWord.word).Pairwise (· ≠ ·) :=
  (validate_crossword_parts h).2.2.2.2.2.1

/-- Claim C7 counterexample: two successful `place_word` calls from the empty
grid commit the same uppercase word twice, so the reachable-state uniqueness
invariant fails. -/
theorem duplicate_place_word_counterexample :
    g_atom1.1 = true ∧ g_atom2.1 = true ∧
    ¬((g_atom2.2.placed_words.map PlacedWord.word).Pairwise (· ≠ ·)) ∧
    ∃ p ∈ g_atom2.2.placed_words, ∃ q ∈ g_atom2.2.placed_words,
      p ≠ q ∧ p.word = q.word := by
  decide

set_option maxRecDepth 100000 in
/-- Witness: the pipeline grid for `EX_words` passes the validator, and its
committed word strings are pairwise distinct. -/
theorem validate_implies_nodup_words_witness :
    (validate_crossword EX_grid).1 = true ∧
    ((get_placed_words EX_grid).map PlacedWord.word).Pairwise (· ≠ ·) := by
  have h : (validate_crossword EX_grid).1 = true := by rfl
  exact ⟨h, validate_implies_nodup_words EX_grid h⟩

set_option maxRecDepth 100000 in
/-- Claim C3 counterexample: the generate path returns the puzzle formatted
from `EX_grid`, yet `EX_grid` fails `check_no_adjacent_parallel`: it holds
two distinct horizontal words on adjacent rows with overlapping column
extents. -/
theorem generate_path_parallel_adjacent_counterexample :
    generate_single EX_words 10 EX_oracle = some (format_result EX_grid) ∧
    check_no_adjacent_parallel EX_grid = false ∧
    ∃ w1 ∈ get_placed_words EX_grid, ∃ w2 ∈ get_placed_words EX_grid,
      w1.direction = "horizontal" ∧ w2.direction = "horizontal" ∧
      w2.row = w1.row + 1 ∧ w1.word ≠ w2.word ∧
      ∃ x ∈ int_range w1.col w1.length, x ∈ int_range w2.col w2.length := by
  refine ⟨by rfl, by rfl, ?_⟩
  decide

set_option maxRecDepth 100000 in
/-- Witness: the pipeline output on `EX_words` satisfies the C1
postconditions. -/
theorem generate_single_postconditions_witness :
    ∃ p, generate_single EX_words 10 EX_oracle = some p ∧
      MIN_WORDS ≤ p.words.length ∧
      (∀ w ∈ p.words, 3 ≤ w.word.length) ∧
      (p.words.map WordOut.word).Pairwise (· ≠ ·) ∧
      OutConnected p.words ∧
      MIN_FILL_DENSITY ≤ p.metadata.fill_density ∧
      p.metadata.fill_density ≤ MAX_FILL_DENSITY ∧
      GENERATOR_MIN_GRID_SIZE ≤ p.metadata.grid_size.1 ∧
      GENERATOR_MIN_GRID_SIZE ≤ p.metadata.grid_size.2 := by
  have h1 : (generate_single EX_words 10 EX_oracle).isSome = true := by rfl
  obtain ⟨p, hp⟩ := Option.isSome_iff_exists.mp h1
  have h := generate_single_postconditions EX_words 10 EX_oracle p hp
  exact ⟨p, hp, h.1, h.2.1, h.2.2.1, h.2.2.2.1, h.2.2.2.2.1, h.2.2.2.2.2.1,
    h.2.2.2.2.2.2.1, h.2.2.2.2.2.2.2.1⟩

/-- Witness: on the empty well-formed size-10 board, placing `АТОМ` at (5,0)
horizontally is legal and appends exactly one `PlacedWord`. -/
theorem place_word_spec_witness :
    WellFormed (Grid.init 10) ∧
    can_place_word (Grid.init 10) "АТОМ".toList 5 0 "horizontal" = true ∧
    (place_word (Grid.init 10) "АТОМ".toList "c" "h" 5 0 "horizontal").2.placed_words =
      (Grid.init 10).placed_words ++
        [⟨upWord "АТОМ".toList, "c", "h", 5, 0, "horizontal"⟩] := by
  have h := place_word_spec (Grid.init 10) "АТОМ".toList "c" "h" 5 0 "horizontal"
    (by decide)
  exact ⟨by decide, by decide, (h.2.2.1 (by decide)).1⟩

/-- Witness: with `АТОМ` at (5,0) horizontal, the cells `ДОМ` would newly
write at row 6 have filled neighbors above and no perpendicular word through
them, so `can_place_word` rejects (the АТОМ/ДОМ instance of the claim). -/
theorem can_place_word_rejects_parallel_touch_witness :
    (∃ i ∈ List.range (upWord "ДОМ".toList).length,
        get_cell g_atom_alone (word_pos 6 0 "horizontal" i).1
            (word_pos 6 0 "horizontal" i).2 = none ∧
        side_neighbor_filled g_atom_alone (word_pos 6 0 "horizontal" i).1
          (word_pos 6 0 "horizontal" i).2 "horizontal" ∧
        has_perpendicular_word g_atom_alone (word_pos 6 0 "horizontal" i).1
          (word_pos 6 0 "horizontal" i).2 (perp_dir "horizontal") = false) ∧
    can_place_word g_atom_alone "ДОМ".toList 6 0 "horizontal" = false :=
  ⟨by decide, can_place_word_rejects_parallel_touch g_atom_alone "ДОМ".toList
    6 0 "horizontal" (by decide)⟩

/-- Witness: the АТОМ board is consistent, and every intersection candidate
for `СТОЛ` on it is placeable, perpendicular, and crossing at least once. -/
theorem get_intersections_spec_witness :
    GridConsistent g_atom_alone ∧
    ∀ t ∈ get_intersections g_atom_alone "СТОЛ".toList,
      can_place_word g_atom_alone "СТОЛ".toList t.1 t.2.1 t.2.2.1 = true ∧
      (∃ p ∈ g_atom_alone.placed_words, t.2.2.1 = perp_dir p.direction) ∧
      t.2.2.2 = (upWord "СТОЛ".toList).enum.countP (fun ic =>
        decide (get_cell g_atom_alone (word_pos t.1 t.2.1 t.2.2.1 ic.1).1
          (word_pos t.1 t.2.1 t.2.2.1 ic.1).2 = some ic.2)) ∧
      1 ≤ t.2.2.2 :=
  ⟨by decide, get_intersections_spec g_atom_alone "СТОЛ".toList (by decide)⟩

/-- Witness: the amended queue characterization instantiated at a one-word
list. -/
theorem candidate_queue_spec_witness :
    (candidate_queue [⟨"ДОМ".toList, "", ""⟩] []).Perm
        ([⟨"ДОМ".toList, "", ""⟩].filter
          (fun w : WordEntry => decide (upWord w.word ∉ ([] : List (List Char))))) ∧
    (candidate_queue [⟨"ДОМ".toList, "", ""⟩] []).Sorted
        (fun a b => b.word.length ≤ a.word.length) ∧
    ∀ k : Int,
      (candidate_queue [⟨"ДОМ".toList, "", ""⟩] []).filter
          (fun w => decide ((w.word.length : Int) = k)) =
        ([⟨"ДОМ".toList, "", ""⟩].filter
            (fun w : WordEntry => decide (upWord w.word ∉ ([] : List (List Char))))).filter
          (fun w => decide ((w.word.length : Int) = k)) :=
  candidate_queue_spec [⟨"ДОМ".toList, "", ""⟩] []

/-- Witness: the amended parallel-adjacency characterization instantiated at
the empty two-cell board. -/
theorem check_no_adjacent_parallel_iff_witness :
    check_no_adjacent_parallel (Grid.init 2) = true ↔
      ∀ i ∈ List.range (get_placed_words (Grid.init 2)).length,
        ∀ j ∈ List.range (get_placed_words (Grid.init 2)).length,
          i < j →
          ((get_placed_words (Grid.init 2)).getD i default).direction =
            ((get_placed_words (Grid.init 2)).getD j default).direction →
          ¬ParallelAdjacent ((get_placed_words (Grid.init 2)).getD i default)
            ((get_placed_words (Grid.init 2)).getD j default) :=
  check_no_adjacent_parallel_iff (Grid.init 2)

/-- Witness: cropping the ТЕСТ board twice equals cropping it once. -/
theorem crop_empty_edges_idem_witness :
    0 < crop_demo.height ∧
    crop_empty_edges (crop_empty_edges crop_demo).2 = crop_empty_edges crop_demo :=
  ⟨by decide, crop_empty_edges_idem crop_demo (by decide)⟩

/-- Witness: the fingerprint facts instantiated on a concrete board, with
the determinism clause discharged at equal inputs. -/
theorem generate_crossword_id_spec_witness :
    (generate_crossword_id id_demo_grid id_demo_words).length = 16 ∧
    (∀ c ∈ generate_crossword_id id_demo_grid id_demo_words, c ∈ hex_digits) ∧
    generate_crossword_id id_demo_grid id_demo_words =
      (md5Hexdigest (utf8 (canonical_content id_demo_grid id_demo_words))).take 16 ∧
    generate_crossword_id id_demo_grid id_demo_words =
      generate_crossword_id id_demo_grid id_demo_words := by
  have h := generate_crossword_id_spec id_demo_grid id_demo_words
  exact ⟨h.1, h.2.1, h.2.2.1, h.2.2.2 id_demo_grid id_demo_words rfl rfl⟩

/-- Witness: purity of `can_place_word` instantiated on a small board. -/
theorem can_place_wordS_pure_witness :
    can_place_wordS (Grid.init 3) "АБВ".toList 0 0 "horizontal" =
      (can_place_word (Grid.init 3) "АБВ".toList 0 0 "horizontal", Grid.init 3) :=
  can_place_wordS_pure (Grid.init 3) "АБВ".toList 0 0 "horizontal"
